import Mathlib

/-!
Verification development for a repository of three Python scripts that fetch
remote data and emit M3U playlists and XMLTV guide documents.

The development shallowly embeds the relevant parts of the source:

* `lg.py` : channel-list normalization (`get_channels`), M3U serialization
  (`generate_m3u_playlist`), guide serialization (`generate_epg_xml`),
  timestamp reformatting (`format_time`), and the bounded-retry fetch loop
  (`fetch_data`).  JSON values are modelled by `JVal`; Python truthiness,
  dictionary lookup and string conversion are modelled explicitly.  The
  standard-library helpers the script calls (`urllib.parse.urljoin` with the
  script's fixed base URL, `datetime.fromisoformat`, `datetime.strftime` for
  the pattern used) are embedded as executable functions.

* `udptv.py` : the playlist relay cleaner (`clean_playlist`), including the
  regular-expression substitution on group-title fields.
-/

/-- JSON-like values as delivered by the remote APIs and processed by the
scripts: null, booleans, integers, strings, arrays and objects. -/
inductive JVal where
  | jnull : JVal
  | jbool : Bool → JVal
  | jnum : Int → JVal
  | jstr : String → JVal
  | jarr : List JVal → JVal
  | jobj : List (String × JVal) → JVal
deriving Repr

/-- Python truthiness of a `JVal`: None, False, 0, empty string, empty list
and empty dict are falsy, everything else is truthy. -/
def pyTruthy : JVal → Bool
  | .jnull => false
  | .jbool b => b
  | .jnum n => n != 0
  | .jstr s => s != ""
  | .jarr l => !l.isEmpty
  | .jobj f => !f.isEmpty

/-- Lookup of a key in an object's field list (Python dicts have unique keys;
the first binding wins). -/
def jlookup (fields : List (String × JVal)) (k : String) : Option JVal :=
  match fields with
  | [] => none
  | (k0, v) :: rest => if k0 = k then some v else jlookup rest k

/-- Python `d.get(k)`: the stored value, or None when the key is absent. -/
def pyGet (fields : List (String × JVal)) (k : String) : JVal :=
  (jlookup fields k).getD .jnull

/-- Python `d.get(k, default)`: the stored value, or `d` when the key is
absent (a stored None is returned as None, not as the default). -/
def pyGetD (fields : List (String × JVal)) (k : String) (d : JVal) : JVal :=
  (jlookup fields k).getD d

mutual

/-- Python `repr` of a JSON-like value, as used by str() on containers.
String escaping inside nested reprs is not claim-relevant and is elided. -/
def pyRepr : JVal → String
  | .jnull => "None"
  | .jbool true => "True"
  | .jbool false => "False"
  | .jnum n => toString n
  | .jstr s => "\x27" ++ s ++ "\x27"
  | .jarr l => "[" ++ String.intercalate ", " (pyReprList l) ++ "]"
  | .jobj f => "\x7b" ++ String.intercalate ", " (pyReprFields f) ++ "\x7d"

/-- Reprs of the elements of a list value. -/
def pyReprList : List JVal → List String
  | [] => []
  | v :: vs => pyRepr v :: pyReprList vs

/-- Reprs of the bindings of an object value. -/
def pyReprFields : List (String × JVal) → List String
  | [] => []
  | (k, v) :: kvs => ("\x27" ++ k ++ "\x27: " ++ pyRepr v) :: pyReprFields kvs

end

/-- Python `str()` as applied by f-string interpolation: strings unchanged,
other values via repr-like rendering. -/
def pyStr : JVal → String
  | .jstr s => s
  | v => pyRepr v

/-- Characters removed from URLs by `urllib.parse.urlsplit`
(`_UNSAFE_URL_BYTES_TO_REMOVE`). -/
def unsafeUrlChar (c : Char) : Bool :=
  c = '\t' || c = '\r' || c = '\n'

/-- Whitespace characters stripped by Python `str.strip()` (ASCII range). -/
def pyWs (c : Char) : Bool :=
  c = ' ' || c = '\t' || c = '\n' || c = '\r' || c = '\x0b' || c = '\x0c'

/-- Python `str.strip()` on a character list. -/
def pyStripCh (cs : List Char) : List Char :=
  ((cs.dropWhile pyWs).reverse.dropWhile pyWs).reverse

/-- Python `str.strip()`. -/
def pyStrip (s : String) : String :=
  ⟨pyStripCh s.data⟩

/-- Does the character list start with the given pattern?  Mirrors Python
`str.startswith` on exploded strings. -/
def startsWithCh : List Char → List Char → Bool
  | [], _ => true
  | _ :: _, [] => false
  | p :: ps, c :: cs => p = c && startsWithCh ps cs

/-- Python `str.startswith`. -/
def pyStarts (s pat : String) : Bool :=
  startsWithCh pat.data s.data

/-- Python substring containment `pat in s` on character lists. -/
def containsSub (pat : List Char) : List Char → Bool
  | [] => pat.isEmpty
  | c :: cs => startsWithCh pat (c :: cs) || containsSub pat cs


/-- Base URL constant of lg.py (`BASE_URL`). -/
def BASE_URL : String := "https://channel-lineup.lgchannels.com"

/-- Network-location component of the base URL, as parsed by urlsplit. -/
def BASE_NETLOC : List Char := "channel-lineup.lgchannels.com".data

/-- Characters allowed in a URL scheme (`urllib.parse.scheme_chars`). -/
def schemeChar (c : Char) : Bool :=
  c.isAlpha || c.isDigit || c = '+' || c = '-' || c = '.'

/-- Split a character list at the first occurrence of a character; the
separator itself is dropped (Python `str.split(sep, 1)`). -/
def splitAtFirst (p : Char) : List Char → Option (List Char × List Char)
  | [] => none
  | c :: cs =>
      if c = p then some ([], cs)
      else (splitAtFirst p cs).map (fun x => (c :: x.1, x.2))

/-- Scheme detection of `urllib.parse.urlsplit`: a leading alphabetic
character followed by scheme characters up to the first colon yields a
lowercased scheme and the remainder. -/
def schemeSplit (cs : List Char) : Option (List Char × List Char) :=
  match splitAtFirst ':' cs with
  | none => none
  | some (pre, post) =>
      match pre with
      | [] => none
      | c0 :: _ =>
          if c0.isAlpha && pre.all schemeChar then
            some (pre.map Char.toLower, post)
          else none

/-- Parsed URL components (params are split off the path separately, as in
`urllib.parse.urlparse`). -/
structure PySplitUrl where
  scheme : List Char
  netloc : List Char
  path : List Char
  query : List Char
  fragment : List Char

/-- Model of `urllib.parse.urlsplit(url, scheme='https')`: removes unsafe
bytes, detects the scheme (defaulting to https), splits off the network
location after a leading "//" (failing, like the ValueError raised by
urlsplit, on unbalanced square brackets), then the fragment, then the
query. -/
def pyUrlsplitHttps (url : List Char) : Option PySplitUrl :=
  let u := url.filter (fun c => !unsafeUrlChar c)
  let sr : List Char × List Char :=
    match schemeSplit u with
    | some (s, r) => (s, r)
    | none => ("https".data, u)
  let nr : List Char × List Char :=
    if startsWithCh "//".data sr.2 then
      ((sr.2.drop 2).takeWhile (fun c => !(c = '/' || c = '?' || c = '#')),
       (sr.2.drop 2).dropWhile (fun c => !(c = '/' || c = '?' || c = '#')))
    else ([], sr.2)
  if (nr.1.contains '[' && !nr.1.contains ']')
      || (nr.1.contains ']' && !nr.1.contains '[') then none
  else
    let fr : List Char × List Char :=
      match splitAtFirst '#' nr.2 with
      | some (a, b) => (a, b)
      | none => (nr.2, [])
    let pq : List Char × List Char :=
      match splitAtFirst '?' fr.1 with
      | some (a, b) => (a, b)
      | none => (fr.1, [])
    some ⟨sr.1, nr.1, pq.1, pq.2, fr.2⟩

/-- Model of `urllib.parse._splitparams`, applied when the path contains a
semicolon: parameters after the last path segment's first semicolon are
split off. -/
def splitParams (path : List Char) : List Char × List Char :=
  if path.contains ';' then
    if path.contains '/' then
      match splitAtFirst '/' path.reverse with
      | some (rb, ra) =>
          match splitAtFirst ';' rb.reverse with
          | none => (path, [])
          | some (b1, b2) => (ra.reverse ++ '/' :: b1, b2)
      | none => (path, [])
    else
      match splitAtFirst ';' path with
      | some (p1, p2) => (p1, p2)
      | none => (path, [])
  else (path, [])

/-- Model of `urllib.parse.urlunsplit`. -/
def pyUrlunsplit (scheme netloc path query fragment : List Char) : List Char :=
  let u1 :=
    if netloc ≠ [] ∨ (path ≠ [] ∧ startsWithCh "//".data path) then
      let p := if path ≠ [] ∧ ¬ startsWithCh "/".data path then '/' :: path else path
      '/' :: '/' :: (netloc ++ p)
    else path
  let u2 := if scheme ≠ [] then scheme ++ ':' :: u1 else u1
  let u3 := if query ≠ [] then u2 ++ '?' :: query else u2
  if fragment ≠ [] then u3 ++ '#' :: fragment else u3

/-- Python `str.split(sep)` for a single-character separator. -/
def splitOnCharAux (sep : Char) : List Char → List Char → List (List Char)
  | [], acc => [acc.reverse]
  | c :: cs, acc =>
      if c = sep then acc.reverse :: splitOnCharAux sep cs []
      else splitOnCharAux sep cs (c :: acc)

/-- Python `str.split(sep)` for a single-character separator. -/
def splitOnChar (sep : Char) (cs : List Char) : List (List Char) :=
  splitOnCharAux sep cs []

/-- Middle-element filtering `segments[1:-1] = filter(None, segments[1:-1])`
performed by `urljoin` on merged path segments. -/
def filterMiddle (l : List (List Char)) : List (List Char) :=
  match l with
  | [] => []
  | [x] => [x]
  | x :: rest =>
      x :: ((rest.dropLast.filter (fun s => !s.isEmpty)) ++ [rest.getLastD []])

/-- Segment-resolution loop of `urljoin`: ".." pops the accumulated path
(ignoring pops of an empty accumulator), "." is skipped, other segments are
appended.  The accumulator is kept reversed. -/
def segLoop : List (List Char) → List (List Char) → List (List Char)
  | racc, [] => racc
  | racc, s :: rest =>
      if s = "..".data then segLoop racc.tail rest
      else if s = ".".data then segLoop racc rest
      else segLoop (s :: racc) rest

/-- Join path segments with '/' (Python `'/'.join`). -/
def joinSegs : List (List Char) → List Char
  | [] => []
  | [s] => s
  | s :: rest => s ++ '/' :: joinSegs rest

/-- Model of `urllib.parse.urljoin(BASE_URL, url)` for the fixed base URL of
lg.py (scheme "https", netloc `BASE_NETLOC`, empty path, params, query and
fragment).  Returns none where urljoin raises ValueError.  Follows CPython:
an empty url yields the base; a url whose scheme differs from https is
returned unchanged; a url with its own netloc is rebuilt from its parts;
otherwise the base netloc is adopted and the path is merged and resolved. -/
def urljoinBase (url : String) : Option String :=
  if url = "" then some BASE_URL
  else
    match pyUrlsplitHttps url.data with
    | none => none
    | some su =>
        if su.scheme ≠ "https".data then some url
        else
          let pp := splitParams su.path
          if su.netloc ≠ [] then
            let pwp := if pp.2 ≠ [] then pp.1 ++ ';' :: pp.2 else pp.1
            some ⟨pyUrlunsplit "https".data su.netloc pwp su.query su.fragment⟩
          else if pp.1 = [] ∧ pp.2 = [] then
            some ⟨pyUrlunsplit "https".data BASE_NETLOC [] su.query su.fragment⟩
          else
            let segs :=
              if startsWithCh "/".data pp.1 then splitOnChar '/' pp.1
              else filterMiddle ([] :: splitOnChar '/' pp.1)
            let lastSeg := segs.getLastD []
            let racc := segLoop [] segs
            let racc2 := if lastSeg = ".".data ∨ lastSeg = "..".data then [] :: racc else racc
            let joined := joinSegs racc2.reverse
            let path2 := if joined = [] then "/".data else joined
            let pwp := if pp.2 ≠ [] then path2 ++ ';' :: pp.2 else path2
            some ⟨pyUrlunsplit "https".data BASE_NETLOC pwp su.query su.fragment⟩


/-- Stream-URL resolution step of `get_channels` (lg.py lines 113-115):
a falsy value (missing field, empty string, None, ...) is passed to urljoin,
which returns the base URL; a string not starting with "http" is joined
against the base; a string starting with "http" is kept; a truthy
non-string raises AttributeError at `.startswith` (none: the record is
dropped by the surrounding try/except). -/
def resolveStream (v : JVal) : Option String :=
  if ¬ pyTruthy v then some BASE_URL
  else
    match v with
    | .jstr s => if pyStarts s "http" then some s else urljoinBase s
    | _ => none

/-- Logo-URL resolution step of `get_channels` (lg.py lines 117-119): a falsy
value is kept unchanged (the guard short-circuits); a truthy string not
starting with "http" is joined against the base; a truthy non-string raises
AttributeError (none: record dropped). -/
def resolveLogo (v : JVal) : Option JVal :=
  if ¬ pyTruthy v then some v
  else
    match v with
    | .jstr s =>
        if pyStarts s "http" then some (.jstr s)
        else (urljoinBase s).map .jstr
    | _ => none

/-- Normalized channel record built by `get_channels` (lg.py lines 121-129). -/
structure ChannelInfo where
  id : JVal
  name : JVal
  number : JVal
  logo : JVal
  stream_url : String
  description : JVal
  categories : JVal
deriving Repr

/-- Per-record processing of `get_channels` (lg.py lines 102-135): non-dict
records and records with a falsy id are skipped; URL resolution may drop the
record via the enclosing try/except; otherwise the normalized record is
built, with the display name defaulting to "Channel <id>". -/
def processChannel (c : JVal) : Option ChannelInfo :=
  match c with
  | .jobj fields =>
      let cid := pyGet fields "id"
      if ¬ pyTruthy cid then none
      else
        match resolveStream (pyGetD fields "streamUrl" (.jstr "")) with
        | none => none
        | some su =>
            match resolveLogo (pyGetD fields "logoUrl" (.jstr "")) with
            | none => none
            | some lo =>
                some { id := cid,
                       name := pyGetD fields "name" (.jstr ("Channel " ++ pyStr cid)),
                       number := pyGetD fields "channelNumber" (.jstr "0"),
                       logo := lo,
                       stream_url := su,
                       description := pyGetD fields "description" (.jstr ""),
                       categories := pyGetD fields "categories" (.jarr []) }
  | _ => none

/-- Channel-list normalization of `get_channels` (lg.py lines 91-138): a
non-list (or falsy) response yields the empty list, otherwise each record is
processed in order and failures are dropped. -/
def channelsOf (data : JVal) : List ChannelInfo :=
  match data with
  | .jarr l => l.filterMap processChannel
  | _ => []

/-- Python iteration over a value (`for c in v`): lists yield their
elements, strings their characters, dicts their keys; other values raise
TypeError (none). -/
def pyIter : JVal → Option (List JVal)
  | .jarr l => some l
  | .jstr s => some (s.data.map fun c => .jstr ⟨[c]⟩)
  | .jobj f => some (f.map fun kv => .jstr kv.1)
  | _ => none

/-- Collect the underlying strings of a list of values, failing (TypeError in
`str.join`) when a non-string is present. -/
def allStrings : List JVal → Option (List String)
  | [] => some []
  | .jstr s :: rest => (allStrings rest).map (s :: ·)
  | _ => none

/-- EPG output filename constant of lg.py (`EPG_FILENAME`). -/
def EPG_FILENAME : String := "lgchannels_epg.xml.gz"

/-- The EXTINF metadata line built by `generate_m3u_playlist` for one channel
(lg.py lines 179-190); none models an uncaught TypeError while iterating or
joining a malformed categories value. -/
def extinfLineOf (c : ChannelInfo) : Option String :=
  let e1 := "#EXTINF:-1 tvg-id=\x22" ++ pyStr c.id ++ "\x22 tvg-name=\x22" ++ pyStr c.name ++ "\x22 "
  let e2 := if pyTruthy c.logo then e1 ++ "tvg-logo=\x22" ++ pyStr c.logo ++ "\x22 " else e1
  let e3 :=
    if pyTruthy c.categories then
      match pyIter c.categories with
      | none => none
      | some items =>
          let cats := items.filter pyTruthy
          if cats.isEmpty then some e2
          else
            match allStrings cats with
            | none => none
            | some strs => some (e2 ++ "group-title=\x22" ++ String.intercalate "," strs ++ "\x22 ")
    else some e2
  e3.map (fun e => e ++ "," ++ pyStr c.name)

/-- Lines contributed to the playlist by one channel (lg.py lines 174-192):
a channel whose stream_url is falsy is skipped with a warning (no lines),
otherwise the EXTINF line and the URL line are emitted. -/
def perChannelLines (c : ChannelInfo) : Option (List String) :=
  if c.stream_url = "" then some []
  else (extinfLineOf c).map (fun e => [e, c.stream_url])

/-- The playlist lines produced by `generate_m3u_playlist` (lg.py lines
166-194): the bare header for an empty channel list, otherwise the tvg-url
header followed by each surviving channel's pair of lines; none models an
uncaught TypeError from a malformed categories value. -/
def m3uGen (channels : List ChannelInfo) : Option (List String) :=
  if channels.isEmpty then some ["#EXTM3U"]
  else
    (channels.mapM perChannelLines).map
      (fun ls => ("#EXTM3U x-tvg-url=" ++ EPG_FILENAME) :: ls.flatten)


/-- Decimal digit character for a digit value. -/
def digitChar (d : Nat) : Char := Char.ofNat (48 + d)

/-- Zero-padded two-digit decimal rendering (printf "%02d") for values below
100, plain decimal beyond. -/
def pad2 (n : Nat) : List Char :=
  if n < 100 then [digitChar (n / 10), digitChar (n % 10)] else (toString n).data

/-- Zero-padded four-digit decimal rendering (strftime "%Y" for the year
range 1..9999), plain decimal beyond. -/
def pad4 (n : Nat) : List Char :=
  if n < 10000 then
    [digitChar (n / 1000), digitChar (n / 100 % 10), digitChar (n / 10 % 10), digitChar (n % 10)]
  else (toString n).data

/-- Zero-padded six-digit decimal rendering ("%06d") for values below
1000000, plain decimal beyond. -/
def pad6 (n : Nat) : List Char :=
  if n < 1000000 then
    [digitChar (n / 100000), digitChar (n / 10000 % 10), digitChar (n / 1000 % 10),
     digitChar (n / 100 % 10), digitChar (n / 10 % 10), digitChar (n % 10)]
  else (toString n).data

/-- Parsed aware-or-naive timestamp as produced by
`datetime.fromisoformat`: calendar fields plus an optional UTC offset in
microseconds. -/
structure PyDateTime where
  year : Nat
  month : Nat
  day : Nat
  hour : Nat
  minute : Nat
  second : Nat
  micro : Nat
  tzOffsetUs : Option Int
deriving Repr

/-- Parse exactly two decimal digits from the front of a character list. -/
def parse2d : List Char → Option (Nat × List Char)
  | a :: b :: rest =>
      if a.isDigit && b.isDigit then
        some ((a.toNat - 48) * 10 + (b.toNat - 48), rest)
      else none
  | _ => none

/-- Model of `datetime._parse_hh_mm_ss_ff`: parses HH[:MM[:SS[.fff[fff]]]]
and returns hour, minute, second and microseconds.  The fractional part must
be exactly three or six digits. -/
def parseHMSF (t : List Char) : Option (Nat × Nat × Nat × Nat) :=
  match parse2d t with
  | none => none
  | some (h, r0) =>
      match r0 with
      | [] => some (h, 0, 0, 0)
      | c0 :: r0t =>
          if c0 ≠ ':' then none
          else
            match parse2d r0t with
            | none => none
            | some (m, r1) =>
                match r1 with
                | [] => some (h, m, 0, 0)
                | c1 :: r1t =>
                    if c1 ≠ ':' then none
                    else
                      match parse2d r1t with
                      | none => none
                      | some (s, r2) =>
                          match r2 with
                          | [] => some (h, m, s, 0)
                          | c2 :: frac =>
                              if c2 ≠ '.' then none
                              else if frac.length = 3 ∧ frac.all Char.isDigit then
                                some (h, m, s, (frac.foldl (fun a c => a * 10 + (c.toNat - 48)) 0) * 1000)
                              else if frac.length = 6 ∧ frac.all Char.isDigit then
                                some (h, m, s, frac.foldl (fun a c => a * 10 + (c.toNat - 48)) 0)
                              else none

/-- Is the year a leap year (Gregorian rule, as in `datetime`)? -/
def isLeap (y : Nat) : Bool :=
  y % 4 = 0 && (y % 100 ≠ 0 || y % 400 = 0)

/-- Days in a month, as validated by the `datetime` constructor. -/
def daysInMonth (y m : Nat) : Nat :=
  if m = 2 then (if isLeap y then 29 else 28)
  else if m = 4 ∨ m = 6 ∨ m = 9 ∨ m = 11 then 30
  else 31

/-- Range validation performed by the `datetime` constructor (`MINYEAR` 1,
`MAXYEAR` 9999) and by the `timezone` constructor (offset strictly between
-24 and +24 hours). -/
def dtValid (y mo d h mi s us : Nat) (tz : Option Int) : Bool :=
  1 ≤ y && y ≤ 9999 && 1 ≤ mo && mo ≤ 12 && 1 ≤ d && d ≤ daysInMonth y mo &&
  h ≤ 23 && mi ≤ 59 && s ≤ 59 && us ≤ 999999 &&
  (match tz with
   | none => true
   | some off => off.natAbs < 86400000000)

/-- Construction step of `datetime.fromisoformat`: build the datetime value,
raising ValueError (none) when a component is out of range, as the
`datetime` and `timezone` constructors do. -/
def mkDateTime (y mo d h mi s us : Nat) (tz : Option Int) : Option PyDateTime :=
  if dtValid y mo d h mi s us tz then some ⟨y, mo, d, h, mi, s, us, tz⟩ else none

/-- Parse the ten-character YYYY-MM-DD date prefix
(`datetime._parse_isoformat_date`). -/
def parseIsoDate : List Char → Option (Nat × Nat × Nat)
  | [y1, y2, y3, y4, s1, m1, m2, s2, d1, d2] =>
      if y1.isDigit && y2.isDigit && y3.isDigit && y4.isDigit && s1 = '-' &&
          m1.isDigit && m2.isDigit && s2 = '-' && d1.isDigit && d2.isDigit then
        some (((y1.toNat - 48) * 10 + (y2.toNat - 48)) * 100 + ((y3.toNat - 48) * 10 + (y4.toNat - 48)),
              (m1.toNat - 48) * 10 + (m2.toNat - 48),
              (d1.toNat - 48) * 10 + (d2.toNat - 48))
      else none
  | _ => none

/-- Index of the first '+' or '-' in a character list (time-zone position
scan of `datetime._parse_isoformat_time`). -/
def tzSignSplit : List Char → Option (List Char × Char × List Char)
  | [] => none
  | c :: cs =>
      if c = '+' ∨ c = '-' then some ([], c, cs)
      else (tzSignSplit cs).map (fun x => (c :: x.1, x.2.1, x.2.2))

/-- Model of `datetime.fromisoformat` on the grammar documented for Python
3.7-3.10, the inverse of `datetime.isoformat`:
YYYY-MM-DD[*HH[:MM[:SS[.fff[fff]]]][+HH:MM[:SS[.ffffff]]]] with any single
character as the date-time separator and a time-zone string of length 5, 8
or 15 after the sign (later interpreters accept a superset of this grammar).
Field ranges are validated as by the `datetime` and `timezone`
constructors; failures (ValueError) are none. -/
def fromisoModel (s : List Char) : Option PyDateTime :=
  match parseIsoDate (s.take 10) with
  | none => none
  | some (y, mo, d) =>
      if s.length = 10 then mkDateTime y mo d 0 0 0 0 none
      else
        let tstr := s.drop 11
        if tstr.length < 2 then none
        else
          match tzSignSplit tstr with
          | none =>
              match parseHMSF tstr with
              | none => none
              | some (h, mi, se, us) => mkDateTime y mo d h mi se us none
          | some (timestr, sign, tzstr) =>
              match parseHMSF timestr with
              | none => none
              | some (h, mi, se, us) =>
                  if tzstr.length = 5 ∨ tzstr.length = 8 ∨ tzstr.length = 15 then
                    match parseHMSF tzstr with
                    | none => none
                    | some (th, tm, ts, tus) =>
                        let mag : Int := ((th * 3600 + tm * 60 + ts) * 1000000 + tus : Nat)
                        let off : Int := if sign = '-' then -mag else mag
                        mkDateTime y mo d h mi se us (some off)
                  else none

/-- Rendering of strftime "%z" as implemented by `datetime._wrap_strftime`:
empty for a naive timestamp, otherwise a sign followed by HHMM, extended
with seconds when the offset has seconds and with ".ffffff" when it has
microseconds. -/
def zRender : Option Int → List Char
  | none => []
  | some off =>
      let sign := if off < 0 then '-' else '+'
      let a := off.natAbs
      let us := a % 1000000
      let tot := a / 1000000
      let h := tot / 3600
      let m := tot % 3600 / 60
      let s := tot % 60
      if us ≠ 0 then sign :: (pad2 h ++ pad2 m ++ pad2 s ++ '.' :: pad6 us)
      else if s ≠ 0 then sign :: (pad2 h ++ pad2 m ++ pad2 s)
      else sign :: (pad2 h ++ pad2 m)

/-- Model of `dt.strftime("%Y%m%d%H%M%S %z")` for the parsed timestamp. -/
def strftimeModel (dt : PyDateTime) : List Char :=
  pad4 dt.year ++ pad2 dt.month ++ pad2 dt.day ++ pad2 dt.hour ++ pad2 dt.minute ++
    pad2 dt.second ++ ' ' :: zRender dt.tzOffsetUs

/-- String normalization performed by `format_time` before parsing (lg.py
lines 306-310): every "Z" is replaced by "+00:00", and when a dot is
present the string is rebuilt as the part before the first dot plus the
part from the dot onward with all colons removed. -/
def normalizeTimeCh (cs : List Char) : List Char :=
  let t1 := if cs.contains 'Z' then cs.flatMap (fun c => if c = 'Z' then "+00:00".data else [c]) else cs
  if t1.contains '.' then
    match splitAtFirst '.' t1 with
    | some ab => ab.1 ++ '.' :: (ab.2.filter (fun c => !(c = ':')))
    | none => t1
  else t1

/-- Model of `format_time` (lg.py lines 299-316): a falsy input yields "",
the input is normalized and parsed, a parse failure yields "" (the logged
warning is not modelled), and a parsed timestamp is rendered in the XMLTV
pattern. -/
def format_time (s : String) : String :=
  if s = "" then ""
  else
    match fromisoModel (normalizeTimeCh s.data) with
    | none => ""
    | some dt => ⟨strftimeModel dt⟩


/-- One programme element of the guide document as built by
`generate_epg_xml` (lg.py lines 244-289): channel/start/stop attributes,
optional title and description text nodes, category text nodes and an
optional icon URL. -/
structure Programme where
  channel : String
  start : String
  stop : String
  title : Option JVal
  desc : Option JVal
  categories : List JVal
  icon : Option String
deriving Repr

/-- Icon resolution for a programme (lg.py lines 284-289): a truthy string
not starting with "http" is joined against the base URL; every failure path
(falsy value, AttributeError on a non-string, ValueError inside urljoin)
leaves the already-created programme element without an icon, because the
icon is the last thing added before the per-program exception handler. -/
def programmeIcon (v : JVal) : Option String :=
  match v with
  | .jstr u =>
      if u = "" then none
      else if pyStarts u "http" then some u
      else urljoinBase u
  | _ => none

/-- Per-program processing of `generate_epg_xml` (lg.py lines 244-292):
non-dict programs are skipped, programs with a falsy startTime or endTime
are skipped, a truthy non-string timestamp raises TypeError inside
`format_time` before the element is created (program skipped); otherwise a
programme element is emitted whose start/stop attributes are the
`format_time` images, with title/description when truthy, categories from
the genre field (lists keep their truthy elements in order, any other
truthy value becomes a single category), and a resolved icon. -/
def buildProgramme (cid : String) (p : JVal) : Option Programme :=
  match p with
  | .jobj fields =>
      let st := pyGet fields "startTime"
      let en := pyGet fields "endTime"
      if ¬ pyTruthy st ∨ ¬ pyTruthy en then none
      else
        match st, en with
        | .jstr ss, .jstr es =>
            let genre := pyGet fields "genre"
            some { channel := cid,
                   start := format_time ss,
                   stop := format_time es,
                   title := if pyTruthy (pyGet fields "title") then some (pyGet fields "title") else none,
                   desc := if pyTruthy (pyGet fields "description") then some (pyGet fields "description") else none,
                   categories :=
                     if pyTruthy genre then
                       match genre with
                       | .jarr l => l.filter pyTruthy
                       | g => [g]
                     else [],
                   icon := programmeIcon (pyGet fields "imageUrl") }
        | _, _ => none
  | _ => none

/-- Programme section of the guide document built by `generate_epg_xml`
(lg.py lines 234-295): for each channel with a truthy id, the fetched
program list (abstracted by `progsOf`, the result of `get_epg_data`) is
processed in order; failed programs are dropped by the per-program handler. -/
def epgProgrammes (channels : List ChannelInfo) (progsOf : JVal → List JVal) : List Programme :=
  channels.flatMap fun c =>
    if pyTruthy c.id then (progsOf c.id).filterMap (buildProgramme (pyStr c.id)) else []


/-- Standardized group title constant of udptv.py (`GROUP_TITLE`). -/
def GROUP_TITLE : String := "UDPTV Live Streams"

/-- The 13-character opening matched by the regular expression
group-title="..." (the attribute name, equals sign and opening quote). -/
def gtPat : List Char := "group-title=\x22".data

/-- The 12-character substring tested by the cleaner's
membership check (group-title without a quote). -/
def inPat : List Char := "group-title=".data

/-- Replacement text of the regular-expression substitution: the attribute
with the standardized group title. -/
def gtRepl : List Char := ("group-title=\x22" ++ GROUP_TITLE ++ "\x22").data

/-- The replacement udptv.py substitutes for "#EXTINF:" when no group-title
attribute is present (clean_playlist line 36). -/
def insRepl : List Char := ("#EXTINF:-1 group-title=\x22" ++ GROUP_TITLE ++ "\x22,").data

/-- The pattern replaced when inserting a group title. -/
def extinfColon : List Char := "#EXTINF:".data

/-- Close-quote search for the non-greedy regular expression
group-title=".*?": the text up to the first double quote and the remainder
after it, failing when a newline or the end of the string intervenes (the
dot of the pattern does not match a newline). -/
def splitClose : List Char → Option (List Char × List Char)
  | [] => none
  | c :: cs =>
      if c = '\x22' then some ([], cs)
      else if c = '\n' then none
      else (splitClose cs).map (fun x => (c :: x.1, x.2))

/-- Fuelled scan implementing `re.sub` with the pattern
group-title=".*?" : every leftmost non-overlapping match is replaced by
`gtRepl`; at a position where the opening matches but no closing quote
follows before a newline the scan moves one character on.  The fuel is
always instantiated with the length of the list. -/
def gtSubAux : Nat → List Char → List Char
  | 0, cs => cs
  | _ + 1, [] => []
  | n + 1, c :: cs =>
      if startsWithCh gtPat (c :: cs) then
        match splitClose ((c :: cs).drop 13) with
        | some x => gtRepl ++ gtSubAux n x.2
        | none => c :: gtSubAux n cs
      else c :: gtSubAux n cs

/-- Model of `re.sub` with pattern group-title=".*?" and the standardized
replacement, as performed on EXTINF lines (udptv.py line 34). -/
def gtSub (cs : List Char) : List Char :=
  gtSubAux cs.length cs

/-- Fuelled scan implementing Python `str.replace` for a fixed non-empty
pattern: all non-overlapping occurrences, left to right. -/
def replaceAllAux (pat repl : List Char) : Nat → List Char → List Char
  | 0, cs => cs
  | _ + 1, [] => []
  | n + 1, c :: cs =>
      if startsWithCh pat (c :: cs) then
        repl ++ replaceAllAux pat repl n ((c :: cs).drop pat.length)
      else c :: replaceAllAux pat repl n cs

/-- Python `str.replace(pat, repl)` for a fixed non-empty pattern. -/
def replaceAll (pat repl cs : List Char) : List Char :=
  replaceAllAux pat repl cs.length cs

/-- The transformation applied to a stripped EXTINF line by
`clean_playlist` (udptv.py lines 31-36): when the line contains
"group-title=" the quoted attribute values are standardized by the
regular-expression substitution, otherwise a group-title attribute is
inserted by replacing "#EXTINF:". -/
def stdExtinf (cs : List Char) : List Char :=
  if containsSub inPat cs then gtSub cs
  else replaceAll extinfColon insRepl cs

/-- String wrapper for `stdExtinf`. -/
def stdExtinfS (s : String) : String :=
  ⟨stdExtinf s.data⟩

/-- Retention test of `clean_playlist` for non-EXTINF lines (udptv.py line
47): kept unless the stripped line starts with one of the dropped
prefixes. -/
def keepLine (s : String) : Bool :=
  ¬ (pyStarts s "#EXTM3U" ∨ pyStarts s "#EXTGRP" ∨ pyStarts s "#EXTVLCOPT"
      ∨ pyStarts s "#" ∨ pyStarts s "Last Updated")

/-- Model of the loop of `clean_playlist` (udptv.py lines 27-50): returns
the cleaned lines together with the reported channel total.  A stripped
line starting with "#EXTINF" is transformed and emitted; when the next raw
line exists and does not start with "#" it is emitted stripped as the
paired stream URL, counted, and skipped.  Other lines are kept stripped
when `keepLine` accepts them. -/
def cleanAux : List String → List String × Nat
  | [] => ([], 0)
  | [l] =>
      let s := pyStrip l
      if pyStarts s "#EXTINF" then ([stdExtinfS s], 0)
      else if keepLine s then ([s], 0)
      else ([], 0)
  | l :: r :: rest2 =>
      let s := pyStrip l
      if pyStarts s "#EXTINF" then
        if ¬ pyStarts r "#" then
          let o := cleanAux rest2
          (stdExtinfS s :: pyStrip r :: o.1, o.2 + 1)
        else
          let o := cleanAux (r :: rest2)
          (stdExtinfS s :: o.1, o.2)
      else if keepLine s then
        let o := cleanAux (r :: rest2)
        (s :: o.1, o.2)
      else cleanAux (r :: rest2)

/-- Cleaned playlist lines of `clean_playlist`. -/
def clean_playlist (lines : List String) : List String :=
  (cleanAux lines).1

/-- Fuelled scan extracting the values of all quoted group-title attributes
of a line, in order (the value of each group-title=".*?" match). -/
def labelsAux : Nat → List Char → List String
  | 0, _ => []
  | _ + 1, [] => []
  | n + 1, c :: cs =>
      if startsWithCh gtPat (c :: cs) then
        match splitClose ((c :: cs).drop 13) with
        | some x => (⟨x.1⟩ : String) :: labelsAux n x.2
        | none => labelsAux n cs
      else labelsAux n cs

/-- The group labels (quoted group-title attribute values) of a line,
character-list level. -/
def labelsOfCh (cs : List Char) : List String :=
  labelsAux cs.length cs

/-- The group labels (quoted group-title attribute values) of a line. -/
def labelsOf (s : String) : List String :=
  labelsOfCh s.data

/-- Does the line carry a quoted group-title attribute (a match of the
substitution pattern)? -/
def hasQuotedGT (cs : List Char) : Bool :=
  !(labelsOfCh cs).isEmpty

/-- The first character, when present, is not Python whitespace (the line
carries no leading whitespace). -/
def headOk (cs : List Char) : Bool :=
  match cs.head? with
  | none => true
  | some c => !pyWs c

/-- The last character, when present, is not Python whitespace (the line
carries no trailing whitespace). -/
def lastOk (cs : List Char) : Bool :=
  match cs.getLast? with
  | none => true
  | some c => !pyWs c

/-- Shape invariant of the line lists produced by `clean_playlist`: a
standardized EXTINF line optionally followed by its paired stream-URL line
(stripped, not starting with #), or a stripped retained line, repeated.
Every recorded line is strip-stable, and EXTINF lines are fixed by the
standardization transform. -/
inductive CleanShape : List String → Prop where
  | nil : CleanShape []
  | pair : ∀ (e u : String) (t : List String),
      pyStrip e = e → pyStarts e "#EXTINF" = true → stdExtinfS e = e →
      pyStrip u = u → pyStarts u "#" = false →
      CleanShape t → CleanShape (e :: u :: t)
  | lone : ∀ (e : String) (t : List String),
      pyStrip e = e → pyStarts e "#EXTINF" = true → stdExtinfS e = e →
      CleanShape t → CleanShape (e :: t)
  | keep : ∀ (k : String) (t : List String),
      pyStrip k = k → pyStarts k "#EXTINF" = false → keepLine k = true →
      CleanShape t → CleanShape (k :: t)


/-- Retry-count constant of lg.py (`MAX_RETRIES`). -/
def MAX_RETRIES : Nat := 3

/-- Retry base-delay constant of lg.py (`RETRY_DELAY`, seconds). -/
def RETRY_DELAY : Nat := 2

/-- Observable behavior of one call of `fetch_data`: the returned value,
the number of HTTP attempts performed, and the list of sleeps (seconds)
between consecutive attempts. -/
structure FetchTrace where
  result : Option JVal
  attempts : Nat
  delays : List Nat
deriving Repr

/-- Loop of `fetch_data` (lg.py lines 68-89): the outcome of the attempt
with 0-based index a is given by the oracle (some decoded body on success,
none for a RequestException); on failure at the last allowed attempt the
function returns None, otherwise it sleeps RETRY_DELAY * (a + 1) seconds
and retries.  The second argument is the number of loop iterations left
(retries + 1 - a). -/
def fetchAux (oracle : Nat → Option JVal) : Nat → Nat → FetchTrace
  | _, 0 => ⟨none, 0, []⟩
  | a, n + 1 =>
      match oracle a with
      | some v => ⟨some v, 1, []⟩
      | none =>
          if n = 0 then ⟨none, 1, []⟩
          else
            let t := fetchAux oracle (a + 1) n
            ⟨t.result, t.attempts + 1, RETRY_DELAY * (a + 1) :: t.delays⟩

/-- Model of `fetch_data(url, retries=...)`: run the attempt loop from
attempt 0 with retries + 1 allowed iterations. -/
def fetch_data (retries : Nat) (oracle : Nat → Option JVal) : FetchTrace :=
  fetchAux oracle 0 (retries + 1)


/-- Does the raw record lack a usable identifier slot entirely: it is not an
object, or it is an object with no "id" binding (`channel.get('id')` is
None)? -/
def lacksId (c : JVal) : Bool :=
  match c with
  | .jobj f => (jlookup f "id").isNone
  | _ => true

/-- Consume exactly n decimal digits from the front of a character list. -/
def digitsPrefix : Nat → List Char → Option (List Char)
  | 0, cs => some cs
  | _ + 1, [] => none
  | n + 1, c :: cs => if c.isDigit then digitsPrefix n cs else none

/-- Tail of a rendered non-empty UTC offset after its sign: four digits, six
digits, or six digits, a dot and six fractional digits (the %z forms
"±HHMM", "±HHMMSS" and "±HHMMSS.ffffff"). -/
def offsetTail (cs : List Char) : Bool :=
  match digitsPrefix 4 cs with
  | none => false
  | some rest =>
      match rest with
      | [] => true
      | _ =>
          match digitsPrefix 2 rest with
          | none => false
          | some [] => true
          | some (c :: frac) => c = '.' && digitsPrefix 6 frac = some []

/-- The output shape asserted by the specification for the timestamp
reformatter: exactly fourteen digits, one space, a sign and exactly four
digits. -/
def claimShapeC3 (s : String) : Bool :=
  match digitsPrefix 14 s.data with
  | some (c :: rest) =>
      c = ' ' &&
        (match rest with
         | sgn :: ds => (sgn = '+' || sgn = '-') && digitsPrefix 4 ds = some []
         | [] => false)
  | _ => false

/-- The output shape the reformatter actually guarantees for non-empty
results: fourteen digits, one space, then either nothing (naive timestamp)
or a signed offset rendering per `offsetTail`. -/
def amendedShapeC3 (s : String) : Bool :=
  match digitsPrefix 14 s.data with
  | some (c :: rest) =>
      c = ' ' &&
        (match rest with
         | [] => true
         | sgn :: ds => (sgn = '+' || sgn = '-') && offsetTail ds)
  | some [] => false
  | none => false

/-- No double quote occurs before the first newline (the region in which
the non-greedy group-title pattern can close a match). -/
def noQB : List Char → Bool
  | [] => true
  | c :: cs =>
      if c = '\x22' then false
      else if c = '\n' then true
      else noQB cs

/-! Helper lemmas. -/

theorem strftimeModel_ne_nil (dt : PyDateTime) : strftimeModel dt ≠ [] := by
  simp [strftimeModel]

theorem fetchAux_attempts_le (oracle : Nat → Option JVal) :
    ∀ n a, (fetchAux oracle a n).attempts ≤ n := by
  intro n
  induction n with
  | zero => intro a; simp [fetchAux]
  | succ n ih =>
      intro a
      cases h : oracle a with
      | some v => simp [fetchAux, h]
      | none =>
          by_cases hn : n = 0
          · simp [fetchAux, h, hn]
          · simp only [fetchAux, h, if_neg hn]
            exact Nat.succ_le_succ (ih (a + 1))

theorem fetchAux_delays (oracle : Nat → Option JVal) :
    ∀ n a j, j < (fetchAux oracle a n).delays.length →
      (fetchAux oracle a n).delays.getD j 0 = RETRY_DELAY * (a + j + 1) := by
  intro n
  induction n with
  | zero => intro a j h; simp [fetchAux] at h
  | succ n ih =>
      intro a j h
      cases ho : oracle a with
      | some v => simp [fetchAux, ho] at h
      | none =>
          by_cases hn : n = 0
          · simp [fetchAux, ho, hn] at h
          · simp only [fetchAux, ho, if_neg hn] at h ⊢
            cases j with
            | zero => simp
            | succ j =>
                simp only [List.getD_cons_succ]
                have := ih (a + 1) j (by simpa using h)
                rw [this]
                ring_nf

theorem fetchAux_result_none (oracle : Nat → Option JVal) :
    ∀ n a, (∀ k, a ≤ k → k < a + n → oracle k = none) →
      (fetchAux oracle a n).result = none := by
  intro n
  induction n with
  | zero => intro a _; simp [fetchAux]
  | succ n ih =>
      intro a hall
      have ha : oracle a = none := hall a (Nat.le_refl a) (by omega)
      by_cases hn : n = 0
      · simp [fetchAux, ha, hn]
      · simp only [fetchAux, ha, if_neg hn]
        exact ih (a + 1) (fun k h1 h2 => hall k (by omega) (by omega))

/-! Claim theorems. -/

/-- C4: the timestamp reformatter returns the empty string exactly for a
falsy input or an input whose normalized form fails to parse; in particular
"not-a-date" maps to "" and "2024-01-01T00:00:00Z" maps to
"20240101000000 +0000". -/
theorem claim_C4 :
    (∀ s : String,
        format_time s = "" ↔ (s = "" ∨ fromisoModel (normalizeTimeCh s.data) = none)) ∧
    format_time "not-a-date" = "" ∧
    format_time "2024-01-01T00:00:00Z" = "20240101000000 +0000" := by
  refine ⟨fun s => ?_, by decide, by decide⟩
  by_cases hs : s = ""
  · simp [format_time, hs]
  · cases h : fromisoModel (normalizeTimeCh s.data) with
    | none => simp [format_time, hs, h]
    | some dt =>
        simp only [format_time, if_neg hs, h]
        constructor
        · intro he
          exact absurd (congrArg String.data he) (by simpa using strftimeModel_ne_nil dt)
        · rintro (h1 | h2)
          · exact absurd h1 hs
          · exact absurd h2 (by simp)

/-- C9: the fetch loop performs at most retries + 1 HTTP attempts, the j-th
sleep between consecutive attempts is RETRY_DELAY * (j + 1) (linear in the
attempt number), and when every attempt fails the call returns None instead
of raising. -/
theorem claim_C9 (retries : Nat) (oracle : Nat → Option JVal) :
    (fetch_data retries oracle).attempts ≤ retries + 1 ∧
    (∀ j, j < (fetch_data retries oracle).delays.length →
        (fetch_data retries oracle).delays.getD j 0 = RETRY_DELAY * (j + 1)) ∧
    ((∀ a, a ≤ retries → oracle a = none) → (fetch_data retries oracle).result = none) := by
  refine ⟨fetchAux_attempts_le oracle (retries + 1) 0, ?_, ?_⟩
  · intro j h
    simpa using fetchAux_delays oracle (retries + 1) 0 j h
  · intro hall
    exact fetchAux_result_none oracle (retries + 1) 0
      (fun k _ hk => hall k (by omega))

/-- Witness for C9 at retries 1 with an always-failing oracle: two attempts,
one sleep of 2 seconds, absent result. -/
theorem claim_C9_witness :
    (fetch_data 1 (fun _ => none)).attempts ≤ 2 ∧
    (fetch_data 1 (fun _ => none)).delays.getD 0 0 = 2 ∧
    (fetch_data 1 (fun _ => none)).result = none := by
  refine ⟨(claim_C9 1 (fun _ => none)).1, ?_, ?_⟩
  · exact (claim_C9 1 (fun _ => none)).2.1 0 (by decide)
  · exact (claim_C9 1 (fun _ => none)).2.2 (fun a _ => rfl)

/-- C10: in the relay cleaner the line after an EXTINF line is paired as the
stream URL whenever it does not start with '#', blank lines included: it is
emitted stripped right after the transformed metadata line and counted in
the reported channel total, so the cleaned playlist can contain entries
whose URL line is the empty string. -/
theorem claim_C10 (l b : String) (rest : List String)
    (hl : pyStarts (pyStrip l) "#EXTINF" = true)
    (hb : pyStarts b "#" = false) :
    cleanAux (l :: b :: rest) =
      (stdExtinfS (pyStrip l) :: pyStrip b :: (cleanAux rest).1,
       (cleanAux rest).2 + 1) := by
  simp [cleanAux, hl, hb]

/-- Witness for C10: a blank line following an EXTINF line is emitted as an
empty URL line and counted. -/
theorem claim_C10_witness :
    cleanAux ["#EXTINF:-1,A", "", "http://x"] =
      (["#EXTINF:-1 group-title=\x22UDPTV Live Streams\x22,-1,A", "",
        "http://x"], 1) := by
  have h := claim_C10 "#EXTINF:-1,A" "" ["http://x"] (by decide) (by decide)
  simpa using h

/-- C8: a programme element built from a program whose genre field is a list
of three non-empty strings carries exactly those three category entries in
order, and a genre field that is a single non-empty string yields exactly
one category entry. -/
theorem claim_C8 (cid : String) (fields : List (String × JVal)) (pr : Programme)
    (a b c g : String)
    (hb : buildProgramme cid (.jobj fields) = some pr) :
    (pyGet fields "genre" = .jarr [.jstr a, .jstr b, .jstr c] →
        a ≠ "" → b ≠ "" → c ≠ "" →
        pr.categories = [.jstr a, .jstr b, .jstr c]) ∧
    (pyGet fields "genre" = .jstr g → g ≠ "" → pr.categories = [.jstr g]) := by
  simp only [buildProgramme] at hb
  split at hb
  · exact absurd hb (by simp)
  · split at hb
    · rename_i ss es _ _
      injection hb with hpr
      subst hpr
      constructor
      · intro hg ha hbn hc
        simp [hg, pyTruthy, ha, hbn, hc]
      · intro hg hgn
        simp [hg, pyTruthy, hgn]
    · exact absurd hb (by simp)

theorem processChannel_id_truthy {c : JVal} {info : ChannelInfo}
    (h : processChannel c = some info) : pyTruthy info.id = true := by
  match c with
  | .jnull => simp [processChannel] at h
  | .jbool _ => simp [processChannel] at h
  | .jnum _ => simp [processChannel] at h
  | .jstr _ => simp [processChannel] at h
  | .jarr _ => simp [processChannel] at h
  | .jobj fields =>
      simp only [processChannel] at h
      split at h
      · exact absurd h (by simp)
      · rename_i hid
        split at h
        · exact absurd h (by simp)
        · split at h
          · exact absurd h (by simp)
          · injection h with h'
            subst h'
            simpa using hid

/-- C5: channel-list normalization never lengthens the list, every surviving
record has a truthy identifier, the surviving records (tagged) form a
sublist of the per-record processing results (order preservation), and a
record that is not an object or has no id binding is dropped. -/
theorem claim_C5 (data : List JVal) :
    (channelsOf (.jarr data)).length ≤ data.length ∧
    (∀ info ∈ channelsOf (.jarr data), pyTruthy info.id = true) ∧
    ((channelsOf (.jarr data)).map some).Sublist (data.map processChannel) ∧
    (∀ c ∈ data, lacksId c = true → processChannel c = none) := by
  refine ⟨?_, ?_, ?_, ?_⟩
  · simpa [channelsOf] using List.length_filterMap_le processChannel data
  · intro info hmem
    simp only [channelsOf] at hmem
    rcases List.mem_filterMap.1 hmem with ⟨c, _, hc⟩
    exact processChannel_id_truthy hc
  · simp only [channelsOf]
    induction data with
    | nil => simp
    | cons c rest ih =>
        cases h : processChannel c with
        | none =>
            simp only [List.filterMap_cons, h, List.map_cons]
            exact List.Sublist.cons _ ih
        | some info =>
            simp only [List.filterMap_cons, h, List.map_cons]
            exact List.Sublist.cons₂ _ ih
  · intro c _ hl
    match c with
    | .jnull => rfl
    | .jbool _ => rfl
    | .jnum _ => rfl
    | .jstr _ => rfl
    | .jarr _ => rfl
    | .jobj fields =>
        simp only [lacksId, Option.isNone_iff_eq_none] at hl
        simp [processChannel, pyGet, hl, pyTruthy]

/-- Witness for C5 on a two-record list: one valid record, one null record;
the null record is dropped and the survivor has a truthy id. -/
theorem claim_C5_witness :
    (channelsOf (.jarr [.jobj [("id", .jstr "a")], .jnull])).length ≤ 2 ∧
    pyTruthy (ChannelInfo.id
      { id := .jstr "a", name := .jstr "Channel a", number := .jstr "0",
        logo := .jstr "", stream_url := BASE_URL, description := .jstr "",
        categories := .jarr [] }) = true ∧
    processChannel .jnull = none := by
  have h := claim_C5 [.jobj [("id", .jstr "a")], .jnull]
  refine ⟨h.1, ?_, ?_⟩
  · exact h.2.1 _ (List.mem_cons_self _ _)
  · exact h.2.2.2 .jnull (List.mem_cons_of_mem _ (List.mem_cons_self _ _)) rfl

/-- Witness for C8: a program with a three-string genre list yields those
three categories in order; a single-string genre yields one category. -/
theorem claim_C8_witness :
    (buildProgramme "1" (.jobj [("startTime", .jstr "2024-01-01T00:00:00Z"),
        ("endTime", .jstr "2024-01-01T01:00:00Z"),
        ("genre", .jarr [.jstr "News", .jstr "Talk", .jstr "Live"])])).map
        Programme.categories = some [.jstr "News", .jstr "Talk", .jstr "Live"] ∧
    (buildProgramme "1" (.jobj [("startTime", .jstr "2024-01-01T00:00:00Z"),
        ("endTime", .jstr "2024-01-01T01:00:00Z"),
        ("genre", .jstr "Sports")])).map Programme.categories = some [.jstr "Sports"] := by
  constructor
  · have e : buildProgramme "1" (.jobj [("startTime", .jstr "2024-01-01T00:00:00Z"),
        ("endTime", .jstr "2024-01-01T01:00:00Z"),
        ("genre", .jarr [.jstr "News", .jstr "Talk", .jstr "Live"])]) =
        some { channel := "1", start := "20240101000000 +0000",
               stop := "20240101010000 +0000", title := none, desc := none,
               categories := [.jstr "News", .jstr "Talk", .jstr "Live"],
               icon := none } := by rfl
    have h := (claim_C8 "1" _ _ "News" "Talk" "Live" "" e).1 rfl
      (by decide) (by decide) (by decide)
    rw [e, Option.map_some', h]
  · have e : buildProgramme "1" (.jobj [("startTime", .jstr "2024-01-01T00:00:00Z"),
        ("endTime", .jstr "2024-01-01T01:00:00Z"),
        ("genre", .jstr "Sports")]) =
        some { channel := "1", start := "20240101000000 +0000",
               stop := "20240101010000 +0000", title := none, desc := none,
               categories := [.jstr "Sports"], icon := none } := by rfl
    have h := (claim_C8 "1" _ _ "" "" "" "Sports" e).2 rfl (by decide)
    rw [e, Option.map_some', h]

/-- C2 as stated is false on the code: a program whose startTime and endTime
are truthy strings that fail to parse is not dropped; it appears in the
guide document with empty start and stop attributes. -/
theorem claim_C2_counterexample :
    epgProgrammes (channelsOf (.jarr [.jobj [("id", .jstr "1")]]))
        (fun _ => [.jobj [("startTime", .jstr "not-a-date"),
                          ("endTime", .jstr "also-bad")]]) =
      [{ channel := "1", start := "", stop := "", title := none, desc := none,
         categories := [], icon := none }] ∧
    Programme.start { channel := "1", start := "", stop := "", title := none,
                      desc := none, categories := [], icon := none } = "" :=
  ⟨rfl, rfl⟩

/-- C2 amended: a program missing (or with falsy) startTime or endTime never
yields a programme element; every emitted programme element's start and stop
attributes are the format_time images of its truthy string timestamps, which
are empty exactly when parsing fails (so programme elements with empty start
or stop attributes can appear). -/
theorem claim_C2_amended :
    (∀ (cid : String) (p : JVal) (pr : Programme), buildProgramme cid p = some pr →
        ∃ fields ss es, p = .jobj fields ∧
          pyGet fields "startTime" = .jstr ss ∧ ss ≠ "" ∧
          pyGet fields "endTime" = .jstr es ∧ es ≠ "" ∧
          pr.start = format_time ss ∧ pr.stop = format_time es) ∧
    (∀ (cid : String) (fields : List (String × JVal)),
        (pyTruthy (pyGet fields "startTime") = false ∨
         pyTruthy (pyGet fields "endTime") = false) →
        buildProgramme cid (.jobj fields) = none) := by
  constructor
  · intro cid p pr h
    match p with
    | .jnull => simp [buildProgramme] at h
    | .jbool _ => simp [buildProgramme] at h
    | .jnum _ => simp [buildProgramme] at h
    | .jstr _ => simp [buildProgramme] at h
    | .jarr _ => simp [buildProgramme] at h
    | .jobj fields =>
        simp only [buildProgramme] at h
        split at h
        · exact absurd h (by simp)
        · rename_i htr
          push_neg at htr
          split at h
          · rename_i ss es hss hes
            injection h with h'
            subst h'
            refine ⟨fields, ss, es, rfl, hss, ?_, hes, ?_, rfl, rfl⟩
            · have := htr.1
              rw [hss] at this
              simpa [pyTruthy] using this
            · have := htr.2
              rw [hes] at this
              simpa [pyTruthy] using this
          · exact absurd h (by simp)
  · intro cid fields hor
    rcases hor with h | h <;>
      simp [buildProgramme, h]

/-- Witness for C2 amended: both directions applied at concrete programs. -/
theorem claim_C2_witness :
    buildProgramme "1" (.jobj [("endTime", .jstr "2024-01-01T00:00:00Z")]) = none ∧
    format_time "not-a-date" = "" := by
  constructor
  · exact claim_C2_amended.2 "1" [("endTime", .jstr "2024-01-01T00:00:00Z")] (Or.inl rfl)
  · rcases claim_C2_amended.1 "1"
        (.jobj [("startTime", .jstr "not-a-date"), ("endTime", .jstr "also-bad")])
        ({ channel := "1", start := "", stop := "", title := none, desc := none,
           categories := [], icon := none }) rfl with
      ⟨fields, ss, es, hfe, hss, _, _, _, hstart, _⟩
    injection hfe with hfe'
    subst hfe'
    have h2 : JVal.jstr "not-a-date" = JVal.jstr ss := hss
    injection h2 with h3
    rw [← h3] at hstart
    exact hstart.symm

/-- C1 as stated is false on the code: a record whose streamUrl is missing
is retained, but its stream_url is resolved by urljoin to the base URL
(non-empty), so the playlist generator emits an EXTINF line and a URL line
for it instead of skipping it; the emitted URL line is the base URL. -/
theorem claim_C1_counterexample :
    channelsOf (.jarr [.jobj [("id", .jstr "1")]]) =
      [{ id := .jstr "1", name := .jstr "Channel 1", number := .jstr "0",
         logo := .jstr "", stream_url := "https://channel-lineup.lgchannels.com",
         description := .jstr "", categories := .jarr [] }] ∧
    m3uGen (channelsOf (.jarr [.jobj [("id", .jstr "1")]])) =
      some ["#EXTM3U x-tvg-url=lgchannels_epg.xml.gz",
            "#EXTINF:-1 tvg-id=\x221\x22 tvg-name=\x22Channel 1\x22 ,Channel 1",
            "https://channel-lineup.lgchannels.com"] :=
  ⟨rfl, rfl⟩

/-- C1 amended: a raw object record with a truthy id whose streamUrl is
missing or the empty string (and whose logoUrl does not make the record
raise) is retained in the normalized list with its stream_url resolved to
the base URL, and the playlist generator emits an entry for it (the
skip-with-warning branch never fires, since the resolved stream_url is
never empty); the entry's URL line is the base URL. -/
theorem claim_C1_amended (fields : List (String × JVal))
    (hid : pyTruthy (pyGet fields "id") = true)
    (hstream : jlookup fields "streamUrl" = none ∨
               jlookup fields "streamUrl" = some (.jstr ""))
    (hlogo : (resolveLogo (pyGetD fields "logoUrl" (.jstr ""))).isSome = true) :
    ∃ info, processChannel (.jobj fields) = some info ∧
      info.stream_url = BASE_URL ∧
      perChannelLines info ≠ some [] ∧
      ∀ e, extinfLineOf info = some e → perChannelLines info = some [e, BASE_URL] := by
  rcases Option.isSome_iff_exists.1 hlogo with ⟨lo, hlo⟩
  have hres : resolveStream (pyGetD fields "streamUrl" (.jstr "")) = some BASE_URL := by
    rcases hstream with h | h <;> simp [pyGetD, h, resolveStream, pyTruthy]
  have hne : BASE_URL ≠ "" := by decide
  have hpc : processChannel (.jobj fields) = some
      ({ id := pyGet fields "id",
         name := pyGetD fields "name" (.jstr ("Channel " ++ pyStr (pyGet fields "id"))),
         number := pyGetD fields "channelNumber" (.jstr "0"),
         logo := lo, stream_url := BASE_URL,
         description := pyGetD fields "description" (.jstr ""),
         categories := pyGetD fields "categories" (.jarr []) }) := by
    simp only [processChannel, hres, hlo]
    rw [if_neg (by simp [hid])]
  have key : ∀ info : ChannelInfo, info.stream_url = BASE_URL →
      perChannelLines info ≠ some [] ∧
      ∀ e, extinfLineOf info = some e → perChannelLines info = some [e, BASE_URL] := by
    intro info hsu
    constructor
    · simp only [perChannelLines, hsu]
      rw [if_neg hne]
      cases h : extinfLineOf info <;> simp [h]
    · intro e he
      simp only [perChannelLines, hsu]
      rw [if_neg hne, he, Option.map_some']
  exact ⟨_, hpc, rfl, (key _ rfl).1, (key _ rfl).2⟩

/-- Witness for C1 amended at the minimal record with just an id. -/
theorem claim_C1_witness :
    (processChannel (.jobj [("id", .jstr "1")])).map ChannelInfo.stream_url =
      some BASE_URL := by
  rcases claim_C1_amended [("id", .jstr "1")] rfl (Or.inl rfl) rfl with
    ⟨info, h1, h2, _, _⟩
  rw [h1, Option.map_some', h2]

theorem startsWithCh_append_self : ∀ (a x : List Char), startsWithCh a (a ++ x) = true := by
  intro a x
  induction a with
  | nil => rfl
  | cons c cs ih => simp [startsWithCh, ih]

theorem startsWithCh_append_of {p a : List Char} (x : List Char)
    (h : startsWithCh p a = true) : startsWithCh p (a ++ x) = true := by
  induction p generalizing a with
  | nil => rfl
  | cons q qs ih =>
      cases a with
      | nil => simp [startsWithCh] at h
      | cons b bs =>
          simp only [startsWithCh, Bool.and_eq_true] at h ⊢
          exact ⟨h.1, ih h.2⟩

theorem startsWithCh_ne_nil {p : Char} {ps cs : List Char}
    (h : startsWithCh (p :: ps) cs = true) : cs ≠ [] := by
  cases cs with
  | nil => simp [startsWithCh] at h
  | cons c cs => simp

theorem unsplit_https_starts_http (nl p q f : List Char) :
    startsWithCh "http".data (pyUrlunsplit "https".data nl p q f) = true := by
  simp only [pyUrlunsplit]
  have hs : ("https".data ≠ []) := by decide
  rw [if_pos hs]
  have base : ∀ X : List Char, startsWithCh "http".data ("https".data ++ ':' :: X) = true := by
    intro X
    have : "https".data ++ ':' :: X = "http".data ++ ('s' :: ':' :: X) := rfl
    rw [this]
    exact startsWithCh_append_self _ _
  split
  · split
    · exact startsWithCh_append_of _ (base _)
    · exact base _
  · split
    · exact startsWithCh_append_of _ (base _)
    · exact base _

theorem unsplit_base_starts (path q f : List Char) :
    startsWithCh BASE_URL.data
      (pyUrlunsplit "https".data BASE_NETLOC path q f) = true := by
  simp only [pyUrlunsplit]
  have hnl : (BASE_NETLOC ≠ [] ∨ (path ≠ [] ∧ startsWithCh "//".data path = true)) := by
    left; decide
  rw [if_pos hnl, if_pos (by decide : ("https".data ≠ []))]
  have base : ∀ X : List Char,
      startsWithCh BASE_URL.data
        ("https".data ++ ':' :: '/' :: '/' :: (BASE_NETLOC ++ X)) = true := by
    intro X
    have h1 : "https".data ++ ':' :: '/' :: '/' :: (BASE_NETLOC ++ X) =
        BASE_URL.data ++ X := by
      have hB : BASE_URL.data = "https".data ++ ':' :: '/' :: '/' :: BASE_NETLOC := rfl
      rw [hB]
      simp
    rw [h1]
    exact startsWithCh_append_self _ _
  split
  · split
    · exact startsWithCh_append_of _ (base _)
    · exact startsWithCh_append_of _ (base _)
  · split
    · exact startsWithCh_append_of _ (base _)
    · exact base _

theorem urljoinBase_starts_or_eq {s r : String} (h : urljoinBase s = some r) :
    pyStarts r "http" = true ∨ r = s := by
  simp only [urljoinBase] at h
  split at h
  · left
    injection h with h'
    subst h'
    decide
  · split at h
    · exact absurd h (by simp)
    · rename_i su _
      split at h
      · right
        injection h with h'
        exact h'.symm
      · left
        split at h
        · injection h with h'
          subst h'
          exact unsplit_https_starts_http _ _ _ _
        · split at h
          · injection h with h'
            subst h'
            exact unsplit_https_starts_http _ _ _ _
          · injection h with h'
            subst h'
            exact unsplit_https_starts_http _ _ _ _

theorem pyUrlsplitHttps_relative {s : List Char}
    (hclean : s.all (fun c => !unsafeUrlChar c) = true)
    (hscheme : schemeSplit s = none)
    (hslash : startsWithCh "//".data s = false) :
    ∃ path q f, pyUrlsplitHttps s = some ⟨"https".data, [], path, q, f⟩ := by
  have hfilter : s.filter (fun c => !unsafeUrlChar c) = s :=
    List.filter_eq_self.mpr (by simpa [List.all_eq_true] using hclean)
  simp only [pyUrlsplitHttps, hfilter, hscheme, hslash]
  simp only [List.contains_nil, Bool.false_and, Bool.and_false, Bool.or_self, if_false,
    Bool.false_eq_true, ite_false]
  exact ⟨_, _, _, rfl⟩

theorem urljoinBase_of_relative_split {s : String} (hne : s ≠ "")
    {path q f : List Char}
    (hsp : pyUrlsplitHttps s.data = some ⟨"https".data, [], path, q, f⟩) :
    ∃ r, urljoinBase s = some r ∧ pyStarts r BASE_URL = true := by
  simp only [urljoinBase]
  rw [if_neg hne, hsp]
  simp only [ne_eq, not_true_eq_false, if_false, reduceIte]
  split
  · exact ⟨_, rfl, unsplit_base_starts _ _ _⟩
  · exact ⟨_, rfl, unsplit_base_starts _ _ _⟩

/-- C6 as stated is false on the code: the record's logoUrl "httpx.png" is a
relative URL (it has no scheme), but because it starts with the four
characters "http" the normalization keeps it unchanged instead of resolving
it against the base URL, so the normalized record carries a relative logo
URL. -/
theorem claim_C6_counterexample :
    (processChannel (.jobj [("id", .jstr "1"), ("logoUrl", .jstr "httpx.png")])).map
        ChannelInfo.logo = some (.jstr "httpx.png") ∧
    schemeSplit "httpx.png".data = none ∧
    pyStarts "httpx.png" "https://channel-lineup.lgchannels.com" = false :=
  ⟨rfl, by decide, by decide⟩

/-- C6 amended: the resolution step treats "starts with http" as the
absoluteness test.  A URL starting with "http" is left unchanged; a
non-empty scheme-less URL not starting with "http" or "//" is resolved
against the base URL to an absolute URL under the base; a falsy stream URL
resolves to the base URL itself; and the resolution step is idempotent:
re-applying it to an already-normalized URL changes nothing. -/
theorem claim_C6_amended :
    (∀ s : String, pyStarts s "http" = true →
        resolveStream (.jstr s) = some s ∧ resolveLogo (.jstr s) = some (.jstr s)) ∧
    (∀ s : String, s ≠ "" → pyStarts s "http" = false →
        s.data.all (fun c => !unsafeUrlChar c) = true →
        schemeSplit s.data = none →
        startsWithCh "//".data s.data = false →
        ∃ r, urljoinBase s = some r ∧ pyStarts r BASE_URL = true ∧
          resolveStream (.jstr s) = some r) ∧
    (∀ v : JVal, pyTruthy v = false → resolveStream v = some BASE_URL) ∧
    (∀ (v : JVal) (w : String), resolveStream v = some w →
        resolveStream (.jstr w) = some w) ∧
    (∀ (v w : JVal), resolveLogo v = some w → resolveLogo w = some w) := by
  have hstr_ne : ∀ {t : String}, pyStarts t "http" = true → t ≠ "" := by
    intro t ht h
    subst h
    simp [pyStarts, startsWithCh] at ht
  refine ⟨?_, ?_, ?_, ?_, ?_⟩
  · intro s hs
    have hne : s ≠ "" := hstr_ne hs
    constructor
    · simp [resolveStream, pyTruthy, hne, hs]
    · simp [resolveLogo, pyTruthy, hne, hs]
  · intro s hne hhttp hclean hscheme hslash
    rcases pyUrlsplitHttps_relative hclean hscheme hslash with ⟨path, q, f, hsp⟩
    rcases urljoinBase_of_relative_split hne hsp with ⟨r, hr, hstarts⟩
    exact ⟨r, hr, hstarts, by simp [resolveStream, pyTruthy, hne, hhttp, hr]⟩
  · intro v hv
    simp [resolveStream, hv]
  · intro v w h
    simp only [resolveStream] at h
    split at h
    · injection h with h'
      subst h'
      have : resolveStream (.jstr BASE_URL) = some BASE_URL := by decide
      exact this
    · rename_i htr
      split at h
      · rename_i s
        split at h
        · rename_i hs
          injection h with h'
          subst h'
          simp [resolveStream, pyTruthy, hstr_ne hs, hs]
        · rename_i hs
          rcases urljoinBase_starts_or_eq h with hw | hw
          · simp [resolveStream, pyTruthy, hstr_ne hw, hw]
          · rw [hw] at h ⊢
            have hnes : s ≠ "" := by
              simpa [pyTruthy] using (not_not.1 htr)
            simp [resolveStream, pyTruthy, hnes, hs, h]
      · exact absurd h (by simp)
  · intro v w h
    simp only [resolveLogo] at h
    split at h
    · injection h with h'
      subst h'
      rename_i hv
      simp [resolveLogo, hv]
    · rename_i htr
      split at h
      · rename_i s
        split at h
        · rename_i hs
          injection h with h'
          subst h'
          simp [resolveLogo, pyTruthy, hstr_ne hs, hs]
        · rename_i hs
          rcases Option.map_eq_some'.1 h with ⟨r, hr, hw⟩
          subst hw
          rcases urljoinBase_starts_or_eq hr with hw | hw
          · simp [resolveLogo, pyTruthy, hstr_ne hw, hw]
          · rw [hw] at hr ⊢
            have hnes : s ≠ "" := by
              simpa [pyTruthy] using (not_not.1 htr)
            simp [resolveLogo, pyTruthy, hnes, hs, hr]
      · exact absurd h (by simp)

/-- Witness for C6 amended: an absolute http URL is unchanged, a relative
path is qualified under the base URL, and resolution of the already-resolved
base URL is stable. -/
theorem claim_C6_witness :
    resolveStream (.jstr "http://x/y") = some "http://x/y" ∧
    urljoinBase "imgs/logo.png" =
      some "https://channel-lineup.lgchannels.com/imgs/logo.png" ∧
    resolveStream (.jstr BASE_URL) = some BASE_URL := by
  refine ⟨(claim_C6_amended.1 "http://x/y" (by decide)).1, ?_, ?_⟩
  · rcases claim_C6_amended.2.1 "imgs/logo.png" (by decide) (by decide)
        (by decide) (by decide) (by decide) with ⟨r, hr, _, _⟩
    have hc : some "https://channel-lineup.lgchannels.com/imgs/logo.png" = some r := by
      rw [← hr]
      rfl
    injection hc with hc'
    rw [hr, ← hc']
  · have h0 : resolveStream .jnull = some BASE_URL :=
      claim_C6_amended.2.2.1 .jnull rfl
    exact claim_C6_amended.2.2.2.1 .jnull BASE_URL h0

theorem mkDateTime_some {y mo d h mi s us : Nat} {tz : Option Int} {dt : PyDateTime}
    (hm : mkDateTime y mo d h mi s us tz = some dt) :
    dtValid y mo d h mi s us tz = true ∧ dt = ⟨y, mo, d, h, mi, s, us, tz⟩ := by
  unfold mkDateTime at hm
  split at hm
  · rename_i hv
    injection hm with h'
    exact ⟨hv, h'.symm⟩
  · exact absurd hm (by simp)

theorem fromiso_valid {cs : List Char} {dt : PyDateTime}
    (h : fromisoModel cs = some dt) :
    dtValid dt.year dt.month dt.day dt.hour dt.minute dt.second dt.micro
      dt.tzOffsetUs = true := by
  simp only [fromisoModel] at h
  split at h
  · exact absurd h (by simp)
  · split at h
    · rcases mkDateTime_some h with ⟨hv, hdt⟩
      subst hdt
      exact hv
    · split at h
      · exact absurd h (by simp)
      · split at h
        · split at h
          · exact absurd h (by simp)
          · rcases mkDateTime_some h with ⟨hv, hdt⟩
            subst hdt
            exact hv
        · split at h
          · exact absurd h (by simp)
          · split at h
            · split at h
              · exact absurd h (by simp)
              · rcases mkDateTime_some h with ⟨hv, hdt⟩
                subst hdt
                exact hv
            · exact absurd h (by simp)

theorem digitChar_isDigit {d : Nat} (h : d < 10) : (digitChar d).isDigit = true := by
  interval_cases d <;> decide

theorem pad2_eq {n : Nat} (h : n < 100) :
    pad2 n = [digitChar (n / 10), digitChar (n % 10)] := by
  simp [pad2, h]

theorem pad4_eq {n : Nat} (h : n < 10000) :
    pad4 n = [digitChar (n / 1000), digitChar (n / 100 % 10),
              digitChar (n / 10 % 10), digitChar (n % 10)] := by
  simp [pad4, h]

theorem pad6_eq {n : Nat} (h : n < 1000000) :
    pad6 n = [digitChar (n / 100000), digitChar (n / 10000 % 10),
              digitChar (n / 1000 % 10), digitChar (n / 100 % 10),
              digitChar (n / 10 % 10), digitChar (n % 10)] := by
  simp [pad6, h]

theorem pad2_digits {n : Nat} (h : n < 100) :
    ∀ c ∈ pad2 n, c.isDigit = true := by
  rw [pad2_eq h]
  intro c hc
  simp only [List.mem_cons, List.not_mem_nil, or_false] at hc
  rcases hc with hc | hc <;> subst hc <;> exact digitChar_isDigit (by omega)

theorem pad4_digits {n : Nat} (h : n < 10000) :
    ∀ c ∈ pad4 n, c.isDigit = true := by
  rw [pad4_eq h]
  intro c hc
  simp only [List.mem_cons, List.not_mem_nil, or_false] at hc
  rcases hc with hc | hc | hc | hc <;> subst hc <;> exact digitChar_isDigit (by omega)

theorem pad6_digits {n : Nat} (h : n < 1000000) :
    ∀ c ∈ pad6 n, c.isDigit = true := by
  rw [pad6_eq h]
  intro c hc
  simp only [List.mem_cons, List.not_mem_nil, or_false] at hc
  rcases hc with hc | hc | hc | hc | hc | hc <;> subst hc <;>
    exact digitChar_isDigit (by omega)

theorem pad2_length {n : Nat} (h : n < 100) : (pad2 n).length = 2 := by
  rw [pad2_eq h]; rfl

theorem pad4_length {n : Nat} (h : n < 10000) : (pad4 n).length = 4 := by
  rw [pad4_eq h]; rfl

theorem pad6_length {n : Nat} (h : n < 1000000) : (pad6 n).length = 6 := by
  rw [pad6_eq h]; rfl

theorem digitsPrefix_of_digits :
    ∀ (A X : List Char), (∀ c ∈ A, c.isDigit = true) →
      digitsPrefix A.length (A ++ X) = some X := by
  intro A
  induction A with
  | nil => intro X _; rfl
  | cons a A ih =>
      intro X hd
      have ha : a.isDigit = true := hd a (List.mem_cons_self _ _)
      simp only [List.length_cons, List.cons_append, digitsPrefix, ha, if_true]
      exact ih X (fun c hc => hd c (List.mem_cons_of_mem _ hc))

theorem digitsPrefix_of_len {A X : List Char} {n : Nat} (hn : A.length = n)
    (hd : ∀ c ∈ A, c.isDigit = true) : digitsPrefix n (A ++ X) = some X := by
  subst hn
  exact digitsPrefix_of_digits A X hd

theorem daysInMonth_le (y m : Nat) : daysInMonth y m ≤ 31 := by
  simp only [daysInMonth]
  split
  · split <;> omega
  · split <;> omega

theorem offsetTail_cases {h m s us : Nat} (hh : h < 100) (hm : m < 100)
    (hs : s < 100) (hus : us < 1000000) :
    offsetTail (pad2 h ++ pad2 m) = true ∧
    offsetTail (pad2 h ++ pad2 m ++ pad2 s) = true ∧
    offsetTail (pad2 h ++ pad2 m ++ pad2 s ++ '.' :: pad6 us) = true := by
  rw [pad2_eq hh, pad2_eq hm, pad2_eq hs, pad6_eq hus]
  have f1 := digitChar_isDigit (show h / 10 < 10 by omega)
  have f2 := digitChar_isDigit (show h % 10 < 10 by omega)
  have f3 := digitChar_isDigit (show m / 10 < 10 by omega)
  have f4 := digitChar_isDigit (show m % 10 < 10 by omega)
  have f5 := digitChar_isDigit (show s / 10 < 10 by omega)
  have f6 := digitChar_isDigit (show s % 10 < 10 by omega)
  have f7 := digitChar_isDigit (show us / 100000 < 10 by omega)
  have f8 := digitChar_isDigit (show us / 10000 % 10 < 10 by omega)
  have f9 := digitChar_isDigit (show us / 1000 % 10 < 10 by omega)
  have f10 := digitChar_isDigit (show us / 100 % 10 < 10 by omega)
  have f11 := digitChar_isDigit (show us / 10 % 10 < 10 by omega)
  have f12 := digitChar_isDigit (show us % 10 < 10 by omega)
  refine ⟨?_, ?_, ?_⟩ <;>
    simp [offsetTail, digitsPrefix, f1, f2, f3, f4, f5, f6, f7, f8, f9, f10, f11, f12]

theorem zRender_shape {off : Int} (hb : off.natAbs < 86400000000) :
    ∃ sgn tail, zRender (some off) = sgn :: tail ∧ (sgn = '+' ∨ sgn = '-') ∧
      offsetTail tail = true := by
  have hh : off.natAbs / 1000000 / 3600 < 100 := by omega
  have hm : off.natAbs / 1000000 % 3600 / 60 < 100 := by omega
  have hs : off.natAbs / 1000000 % 60 < 100 := by omega
  have hus : off.natAbs % 1000000 < 1000000 := by omega
  have hsgn : (if off < 0 then '-' else '+') = '+' ∨
      (if off < 0 then '-' else '+') = '-' := by
    split
    · right; rfl
    · left; rfl
  rcases offsetTail_cases hh hm hs hus with ⟨o1, o2, o3⟩
  simp only [zRender]
  split
  · exact ⟨_, _, rfl, hsgn, o3⟩
  · split
    · exact ⟨_, _, rfl, hsgn, o2⟩
    · exact ⟨_, _, rfl, hsgn, o1⟩

theorem amendedShape_strftime (dt : PyDateTime)
    (hv : dtValid dt.year dt.month dt.day dt.hour dt.minute dt.second dt.micro
      dt.tzOffsetUs = true) :
    amendedShapeC3 ⟨strftimeModel dt⟩ = true := by
  rcases dt with ⟨y, mo, d, hh, mi, se, us, tz⟩
  simp only [dtValid, Bool.and_eq_true, decide_eq_true_eq] at hv
  rcases hv with ⟨⟨⟨⟨⟨⟨⟨⟨⟨⟨hy1, hy2⟩, hmo1⟩, hmo2⟩, hd1⟩, hd2⟩, hhh⟩, hmi⟩, hse⟩, hus⟩, htz⟩
  have hdle : d < 100 := by
    have := daysInMonth_le y mo
    omega
  simp only [strftimeModel]
  rw [pad4_eq (show y < 10000 by omega), pad2_eq (show mo < 100 by omega),
      pad2_eq hdle, pad2_eq (show hh < 100 by omega),
      pad2_eq (show mi < 100 by omega), pad2_eq (show se < 100 by omega)]
  have g1 := digitChar_isDigit (show y / 1000 < 10 by omega)
  have g2 := digitChar_isDigit (show y / 100 % 10 < 10 by omega)
  have g3 := digitChar_isDigit (show y / 10 % 10 < 10 by omega)
  have g4 := digitChar_isDigit (show y % 10 < 10 by omega)
  have g5 := digitChar_isDigit (show mo / 10 < 10 by omega)
  have g6 := digitChar_isDigit (show mo % 10 < 10 by omega)
  have g7 := digitChar_isDigit (show d / 10 < 10 by omega)
  have g8 := digitChar_isDigit (show d % 10 < 10 by omega)
  have g9 := digitChar_isDigit (show hh / 10 < 10 by omega)
  have g10 := digitChar_isDigit (show hh % 10 < 10 by omega)
  have g11 := digitChar_isDigit (show mi / 10 < 10 by omega)
  have g12 := digitChar_isDigit (show mi % 10 < 10 by omega)
  have g13 := digitChar_isDigit (show se / 10 < 10 by omega)
  have g14 := digitChar_isDigit (show se % 10 < 10 by omega)
  cases tz with
  | none =>
      simp [amendedShapeC3, digitsPrefix, zRender,
        g1, g2, g3, g4, g5, g6, g7, g8, g9, g10, g11, g12, g13, g14]
  | some off =>
      have hb : off.natAbs < 86400000000 := by simpa using htz
      rcases zRender_shape hb with ⟨sgn, tail, hz, hsgn, ht⟩
      rw [hz]
      rcases hsgn with h | h <;> subst h <;>
        simp [amendedShapeC3, digitsPrefix, ht,
          g1, g2, g3, g4, g5, g6, g7, g8, g9, g10, g11, g12, g13, g14]

/-- C3 as stated is false on the code: a valid timestamp with no UTC offset
parses to a naive datetime, for which strftime renders %z as the empty
string, so the output is fourteen digits followed by a trailing space with
no signed offset, which is neither empty nor of the claimed shape. -/
theorem claim_C3_counterexample :
    format_time "2024-01-01T00:00:00" = "20240101000000 " ∧
    claimShapeC3 "20240101000000 " = false ∧
    ("20240101000000 " : String) ≠ "" :=
  ⟨by decide, by decide, by decide⟩

/-- C3 amended: the timestamp reformatter returns either the empty string or
fourteen digits followed by one space and then the %z rendering of the
parsed offset: nothing at all for a naive timestamp, or a sign followed by
HHMM, HHMMSS, or HHMMSS.ffffff. -/
theorem claim_C3_amended (s : String) :
    format_time s = "" ∨ amendedShapeC3 (format_time s) = true := by
  by_cases hs : s = ""
  · left
    simp [format_time, hs]
  · cases h : fromisoModel (normalizeTimeCh s.data) with
    | none => left; simp [format_time, hs, h]
    | some dt =>
        right
        have he : format_time s = ⟨strftimeModel dt⟩ := by
          simp [format_time, hs, h]
        rw [he]
        exact amendedShape_strftime dt (fromiso_valid h)

theorem startsWithCh_length_le : ∀ {p cs : List Char},
    startsWithCh p cs = true → p.length ≤ cs.length := by
  intro p
  induction p with
  | nil => intro cs _; simp
  | cons q qs ih =>
      intro cs h
      cases cs with
      | nil => simp [startsWithCh] at h
      | cons c cs =>
          simp only [startsWithCh, Bool.and_eq_true] at h
          simpa using ih h.2

theorem startsWithCh_iff_take : ∀ {p cs : List Char},
    startsWithCh p cs = true ↔ cs.take p.length = p := by
  intro p
  induction p with
  | nil => intro cs; simp [startsWithCh]
  | cons q qs ih =>
      intro cs
      cases cs with
      | nil => simp [startsWithCh]
      | cons c cs =>
          simp only [startsWithCh, Bool.and_eq_true, List.length_cons, List.take_succ_cons,
            List.cons.injEq, ih, decide_eq_true_eq]
          constructor
          · rintro ⟨h1, h2⟩; exact ⟨h1.symm, h2⟩
          · rintro ⟨h1, h2⟩; exact ⟨h1.symm, h2⟩

theorem startsWithCh_eq_append {p cs : List Char} (h : startsWithCh p cs = true) :
    cs = p ++ cs.drop p.length := by
  conv_lhs => rw [← List.take_append_drop p.length cs]
  rw [startsWithCh_iff_take.1 h]

theorem splitClose_length : ∀ {cs : List Char} {x : List Char × List Char},
    splitClose cs = some x → x.2.length < cs.length := by
  intro cs
  induction cs with
  | nil => intro x h; simp [splitClose] at h
  | cons c cs ih =>
      intro x h
      simp only [splitClose] at h
      split at h
      · injection h with h'
        subst h'
        simp
      · split at h
        · exact absurd h (by simp)
        · rcases Option.map_eq_some'.1 h with ⟨y, hy, hxy⟩
          subst hxy
          have hy2 : y.2.length < cs.length := ih hy
          simpa using Nat.lt_succ_of_lt hy2

theorem gtSubAux_fuel : ∀ (n m : Nat) (cs : List Char),
    cs.length ≤ n → cs.length ≤ m → gtSubAux n cs = gtSubAux m cs := by
  intro n
  induction n with
  | zero =>
      intro m cs hn _
      have : cs = [] := List.length_eq_zero.1 (Nat.le_zero.1 hn)
      subst this
      cases m <;> rfl
  | succ n ih =>
      intro m cs hn hm
      cases cs with
      | nil => cases m <;> rfl
      | cons c cs =>
          cases m with
          | zero => simp at hm
          | succ m =>
              simp only [gtSubAux]
              split
              · rename_i hstart
                cases hsp : splitClose ((c :: cs).drop 13) with
                | some x =>
                    dsimp only
                    have hlt : x.2.length ≤ cs.length := by
                      have h1 := splitClose_length hsp
                      have h2 : ((c :: cs).drop 13).length ≤ cs.length := by
                        simp only [List.length_drop, List.length_cons]
                        omega
                      omega
                    simp only [List.length_cons] at hn hm
                    rw [ih m x.2 (by omega) (by omega)]
                | none =>
                    dsimp only
                    simp only [List.length_cons] at hn hm
                    rw [ih m cs (by omega) (by omega)]
              · simp only [List.length_cons] at hn hm
                rw [ih m cs (by omega) (by omega)]

theorem labelsAux_fuel : ∀ (n m : Nat) (cs : List Char),
    cs.length ≤ n → cs.length ≤ m → labelsAux n cs = labelsAux m cs := by
  intro n
  induction n with
  | zero =>
      intro m cs hn _
      have : cs = [] := List.length_eq_zero.1 (Nat.le_zero.1 hn)
      subst this
      cases m <;> rfl
  | succ n ih =>
      intro m cs hn hm
      cases cs with
      | nil => cases m <;> rfl
      | cons c cs =>
          cases m with
          | zero => simp at hm
          | succ m =>
              simp only [labelsAux]
              split
              · rename_i hstart
                cases hsp : splitClose ((c :: cs).drop 13) with
                | some x =>
                    dsimp only
                    have hlt : x.2.length ≤ cs.length := by
                      have h1 := splitClose_length hsp
                      have h2 : ((c :: cs).drop 13).length ≤ cs.length := by
                        simp only [List.length_drop, List.length_cons]
                        omega
                      omega
                    simp only [List.length_cons] at hn hm
                    rw [ih m x.2 (by omega) (by omega)]
                | none =>
                    dsimp only
                    simp only [List.length_cons] at hn hm
                    rw [ih m cs (by omega) (by omega)]
              · simp only [List.length_cons] at hn hm
                rw [ih m cs (by omega) (by omega)]

theorem replaceAllAux_fuel (pat repl : List Char) (hp : pat ≠ []) :
    ∀ (n m : Nat) (cs : List Char),
      cs.length ≤ n → cs.length ≤ m → replaceAllAux pat repl n cs = replaceAllAux pat repl m cs := by
  intro n
  induction n with
  | zero =>
      intro m cs hn _
      have : cs = [] := List.length_eq_zero.1 (Nat.le_zero.1 hn)
      subst this
      cases m <;> rfl
  | succ n ih =>
      intro m cs hn hm
      cases cs with
      | nil => cases m <;> rfl
      | cons c cs =>
          cases m with
          | zero => simp at hm
          | succ m =>
              simp only [replaceAllAux]
              split
              · have hlen : ((c :: cs).drop pat.length).length ≤ cs.length := by
                  have : 1 ≤ pat.length := by
                    cases pat with
                    | nil => exact absurd rfl hp
                    | cons _ _ => simp
                  simp [List.length_drop]
                  omega
                simp only [List.length_cons] at hn hm
                rw [ih m _ (by omega) (by omega)]
              · simp only [List.length_cons] at hn hm
                rw [ih m cs (by omega) (by omega)]

theorem gtSub_nil : gtSub [] = [] := rfl

theorem gtSub_pos {cs : List Char} {x : List Char × List Char}
    (h1 : startsWithCh gtPat cs = true)
    (h2 : splitClose (cs.drop 13) = some x) :
    gtSub cs = gtRepl ++ gtSub x.2 := by
  cases cs with
  | nil =>
      have := startsWithCh_length_le h1
      exact absurd this (by decide)
  | cons c cs =>
      have hlt : x.2.length ≤ cs.length := by
        have h3 := splitClose_length h2
        simp only [List.length_drop, List.length_cons] at h3
        omega
      simp only [gtSub, List.length_cons, gtSubAux, if_pos h1]
      rw [h2]
      dsimp only
      congr 1
      exact gtSubAux_fuel cs.length x.2.length x.2 hlt le_rfl

theorem gtSub_fail {c : Char} {cs : List Char}
    (h1 : startsWithCh gtPat (c :: cs) = true)
    (h2 : splitClose ((c :: cs).drop 13) = none) :
    gtSub (c :: cs) = c :: gtSub cs := by
  simp only [gtSub, List.length_cons, gtSubAux, if_pos h1]
  rw [h2]

theorem gtSub_skip {c : Char} {cs : List Char}
    (h1 : startsWithCh gtPat (c :: cs) = false) :
    gtSub (c :: cs) = c :: gtSub cs := by
  simp only [gtSub, List.length_cons, gtSubAux]
  rw [if_neg (by simp [h1])]

theorem labelsOfCh_nil : labelsOfCh [] = [] := rfl

theorem labels_pos {cs : List Char} {x : List Char × List Char}
    (h1 : startsWithCh gtPat cs = true)
    (h2 : splitClose (cs.drop 13) = some x) :
    labelsOfCh cs = (⟨x.1⟩ : String) :: labelsOfCh x.2 := by
  cases cs with
  | nil =>
      have := startsWithCh_length_le h1
      exact absurd this (by decide)
  | cons c cs =>
      have hlt : x.2.length ≤ cs.length := by
        have h3 := splitClose_length h2
        simp only [List.length_drop, List.length_cons] at h3
        omega
      simp only [labelsOfCh, List.length_cons, labelsAux, if_pos h1]
      rw [h2]
      dsimp only
      congr 1
      exact labelsAux_fuel cs.length x.2.length x.2 hlt le_rfl

theorem labels_fail {c : Char} {cs : List Char}
    (h1 : startsWithCh gtPat (c :: cs) = true)
    (h2 : splitClose ((c :: cs).drop 13) = none) :
    labelsOfCh (c :: cs) = labelsOfCh cs := by
  simp only [labelsOfCh, List.length_cons, labelsAux, if_pos h1]
  rw [h2]

theorem labels_skip {c : Char} {cs : List Char}
    (h1 : startsWithCh gtPat (c :: cs) = false) :
    labelsOfCh (c :: cs) = labelsOfCh cs := by
  simp only [labelsOfCh, List.length_cons, labelsAux]
  rw [if_neg (by simp [h1])]

theorem replaceAll_nil (pat repl : List Char) : replaceAll pat repl [] = [] := rfl

theorem replaceAll_pos {pat repl : List Char} {c : Char} {cs : List Char}
    (hp : pat ≠ []) (h : startsWithCh pat (c :: cs) = true) :
    replaceAll pat repl (c :: cs) = repl ++ replaceAll pat repl ((c :: cs).drop pat.length) := by
  have hl : 1 ≤ pat.length := by
    cases pat with
    | nil => exact absurd rfl hp
    | cons _ _ => simp
  have hlt : ((c :: cs).drop pat.length).length ≤ cs.length := by
    simp only [List.length_drop, List.length_cons]
    omega
  simp only [replaceAll, List.length_cons, replaceAllAux, if_pos h]
  congr 1
  exact replaceAllAux_fuel pat repl hp cs.length _ _ hlt le_rfl

theorem replaceAll_skip {pat repl : List Char} {c : Char} {cs : List Char}
    (h : startsWithCh pat (c :: cs) = false) :
    replaceAll pat repl (c :: cs) = c :: replaceAll pat repl cs := by
  simp only [replaceAll, List.length_cons, replaceAllAux]
  rw [if_neg (by simp [h])]

theorem startsWith_gtPat_cons {c : Char} {cs : List Char} :
    startsWithCh gtPat (c :: cs) = true ↔
      (c = 'g' ∧ startsWithCh "roup-title=\x22".data cs = true) := by
  have hg : gtPat = 'g' :: "roup-title=\x22".data := rfl
  rw [hg]
  simp only [startsWithCh, Bool.and_eq_true, decide_eq_true_eq]
  constructor
  · rintro ⟨h1, h2⟩; exact ⟨h1.symm, h2⟩
  · rintro ⟨h1, h2⟩; exact ⟨h1.symm, h2⟩

theorem startsWith_gtPat_head_false {c : Char} {cs : List Char} (h : c ≠ 'g') :
    startsWithCh gtPat (c :: cs) = false := by
  rw [Bool.eq_false_iff]
  intro hh
  exact h (startsWith_gtPat_cons.1 hh).1

theorem gtSub_nog_prefix : ∀ (a x : List Char), (∀ c ∈ a, c ≠ 'g') →
    gtSub (a ++ x) = a ++ gtSub x := by
  intro a
  induction a with
  | nil => intro x _; rfl
  | cons b a ih =>
      intro x hn
      have hb : b ≠ 'g' := hn b (List.mem_cons_self _ _)
      rw [List.cons_append, gtSub_skip (startsWith_gtPat_head_false hb),
        ih x (fun c hc => hn c (List.mem_cons_of_mem _ hc))]
      rfl

theorem labels_nog_prefix : ∀ (a x : List Char), (∀ c ∈ a, c ≠ 'g') →
    labelsOfCh (a ++ x) = labelsOfCh x := by
  intro a
  induction a with
  | nil => intro x _; rfl
  | cons b a ih =>
      intro x hn
      have hb : b ≠ 'g' := hn b (List.mem_cons_self _ _)
      rw [List.cons_append, labels_skip (startsWith_gtPat_head_false hb),
        ih x (fun c hc => hn c (List.mem_cons_of_mem _ hc))]

theorem gtSub_take_in : ∀ (n : Nat) (cs : List Char) (m : Nat), cs.length ≤ n →
    'g' ∉ cs.take m → (gtSub cs).take m = cs.take m := by
  intro n
  induction n with
  | zero =>
      intro cs m hn _
      have : cs = [] := List.length_eq_zero.1 (Nat.le_zero.1 hn)
      subst this
      rfl
  | succ n ih =>
      intro cs m hn hg
      cases cs with
      | nil => rfl
      | cons c cs =>
          cases m with
          | zero => simp
          | succ m =>
              simp only [List.take_succ_cons, List.mem_cons, not_or] at hg
              have hc : c ≠ 'g' := fun h => hg.1 h.symm
              rw [gtSub_skip (startsWith_gtPat_head_false hc)]
              simp only [List.take_succ_cons, List.length_cons] at hn ⊢
              rw [ih cs m (by omega) hg.2]

theorem gtSub_take_out : ∀ (n : Nat) (cs : List Char) (m : Nat), cs.length ≤ n →
    'g' ∉ (gtSub cs).take m → (gtSub cs).take m = cs.take m := by
  intro n
  induction n with
  | zero =>
      intro cs m hn _
      have : cs = [] := List.length_eq_zero.1 (Nat.le_zero.1 hn)
      subst this
      rfl
  | succ n ih =>
      intro cs m hn hg
      cases cs with
      | nil => rfl
      | cons c cs =>
          cases m with
          | zero => simp
          | succ m =>
              by_cases hs : startsWithCh gtPat (c :: cs) = true
              · have hcg : c = 'g' := (startsWith_gtPat_cons.1 hs).1
                cases hsp : splitClose ((c :: cs).drop 13) with
                | some x =>
                    rw [gtSub_pos hs hsp] at hg
                    exact absurd (by simp [gtRepl] : 'g' ∈ (gtRepl ++ gtSub x.2).take (m + 1)) hg
                | none =>
                    rw [gtSub_fail hs hsp] at hg
                    subst hcg
                    simp at hg
              · have hs' : startsWithCh gtPat (c :: cs) = false := by
                  simpa using hs
                rw [gtSub_skip hs'] at hg ⊢
                simp only [List.take_succ_cons, List.mem_cons, not_or] at hg
                simp only [List.take_succ_cons, List.length_cons] at hn ⊢
                rw [ih cs m (by omega) hg.2]

theorem splitClose_none_iff : ∀ cs : List Char, splitClose cs = none ↔ noQB cs = true := by
  intro cs
  induction cs with
  | nil => simp [splitClose, noQB]
  | cons c cs ih =>
      simp only [splitClose, noQB]
      by_cases h1 : c = '\x22'
      · simp [h1]
      · by_cases h2 : c = '\n'
        · simp [h1, h2]
        · simp [h1, h2, Option.map_eq_none', ih]

theorem noQB_gtPat_append (X : List Char) : noQB (gtPat ++ X) = false := by
  have h : gtPat ++ X =
      'g' :: 'r' :: 'o' :: 'u' :: 'p' :: '-' :: 't' :: 'i' :: 't' :: 'l' :: 'e' ::
        '=' :: '\x22' :: X := rfl
  rw [h]
  simp [noQB]

theorem noQB_of_startsWith {cs : List Char} (h : startsWithCh gtPat cs = true) :
    noQB cs = false := by
  conv_lhs => rw [startsWithCh_eq_append h]
  exact noQB_gtPat_append _

theorem noQB_gtSub : ∀ (n : Nat) (cs : List Char), cs.length ≤ n →
    noQB cs = true → noQB (gtSub cs) = true := by
  intro n
  induction n with
  | zero =>
      intro cs hn h
      have : cs = [] := List.length_eq_zero.1 (Nat.le_zero.1 hn)
      subst this
      exact h
  | succ n ih =>
      intro cs hn h
      cases cs with
      | nil => exact h
      | cons c cs =>
          by_cases hs : startsWithCh gtPat (c :: cs) = true
          · exact absurd (noQB_of_startsWith hs) (by simp [h])
          · have hs' : startsWithCh gtPat (c :: cs) = false := by simpa using hs
            rw [gtSub_skip hs']
            simp only [noQB] at h ⊢
            by_cases h1 : c = '\x22'
            · simp [h1] at h
            · by_cases h2 : c = '\n'
              · simp [h1, h2]
              · simp only [if_neg h1, if_neg h2] at h ⊢
                simp only [List.length_cons] at hn
                exact ih cs (by omega) h

theorem gtSub_no_new_match {c : Char} {cs : List Char}
    (h : startsWithCh gtPat (c :: cs) = false) :
    startsWithCh gtPat (c :: gtSub cs) = false := by
  rw [Bool.eq_false_iff] at h ⊢
  intro hh
  apply h
  obtain ⟨hc, ht⟩ := startsWith_gtPat_cons.1 hh
  have htake := startsWithCh_iff_take.1 ht
  have hnog : 'g' ∉ (gtSub cs).take ("roup-title=\x22".data).length := by
    rw [htake]; decide
  have hto := gtSub_take_out cs.length cs _ le_rfl hnog
  exact startsWith_gtPat_cons.2 ⟨hc, startsWithCh_iff_take.2 (hto ▸ htake)⟩

theorem gtSub_gtRepl (X : List Char) : gtSub (gtRepl ++ X) = gtRepl ++ gtSub X := by
  have he : gtRepl ++ X = gtPat ++ ("UDPTV Live Streams\x22".data ++ X) := rfl
  have h1 : startsWithCh gtPat (gtRepl ++ X) = true := by
    rw [he]; exact startsWithCh_append_self _ _
  have h2 : splitClose ((gtRepl ++ X).drop 13) = some ("UDPTV Live Streams".data, X) := rfl
  exact gtSub_pos h1 h2

theorem labels_gtRepl (X : List Char) :
    labelsOfCh (gtRepl ++ X) = GROUP_TITLE :: labelsOfCh X := by
  have he : gtRepl ++ X = gtPat ++ ("UDPTV Live Streams\x22".data ++ X) := rfl
  have h1 : startsWithCh gtPat (gtRepl ++ X) = true := by
    rw [he]; exact startsWithCh_append_self _ _
  have h2 : splitClose ((gtRepl ++ X).drop 13) = some ("UDPTV Live Streams".data, X) := rfl
  exact labels_pos h1 h2

theorem gtSub_gtPat_fail {Y : List Char} (hq : noQB Y = true) :
    gtSub (gtPat ++ Y) = gtPat ++ gtSub Y := by
  have hs : startsWithCh gtPat ('g' :: ("roup-title=\x22".data ++ Y)) = true :=
    startsWithCh_append_self gtPat Y
  have hsp : splitClose (('g' :: ("roup-title=\x22".data ++ Y)).drop 13) = none := by
    have hd : ('g' :: ("roup-title=\x22".data ++ Y)).drop 13 = Y := rfl
    rw [hd]
    exact (splitClose_none_iff _).2 hq
  rw [show gtPat ++ Y = 'g' :: ("roup-title=\x22".data ++ Y) from rfl, gtSub_fail hs hsp,
    gtSub_nog_prefix _ _ (by decide)]
  rfl

theorem labels_gtPat_fail {Y : List Char} (hq : noQB Y = true) :
    labelsOfCh (gtPat ++ Y) = labelsOfCh Y := by
  have hs : startsWithCh gtPat ('g' :: ("roup-title=\x22".data ++ Y)) = true :=
    startsWithCh_append_self gtPat Y
  have hsp : splitClose (('g' :: ("roup-title=\x22".data ++ Y)).drop 13) = none := by
    have hd : ('g' :: ("roup-title=\x22".data ++ Y)).drop 13 = Y := rfl
    rw [hd]
    exact (splitClose_none_iff _).2 hq
  rw [show gtPat ++ Y = 'g' :: ("roup-title=\x22".data ++ Y) from rfl, labels_fail hs hsp,
    labels_nog_prefix _ _ (by decide)]

theorem gtSub_idem_aux : ∀ (n : Nat) (cs : List Char), cs.length ≤ n →
    gtSub (gtSub cs) = gtSub cs := by
  intro n
  induction n with
  | zero =>
      intro cs hn
      have : cs = [] := List.length_eq_zero.1 (Nat.le_zero.1 hn)
      subst this; rfl
  | succ n ih =>
      intro cs hn
      cases cs with
      | nil => rfl
      | cons c cs =>
          simp only [List.length_cons] at hn
          by_cases hs : startsWithCh gtPat (c :: cs) = true
          · cases hsp : splitClose ((c :: cs).drop 13) with
            | some x =>
                have hlt := splitClose_length hsp
                simp only [List.length_drop, List.length_cons] at hlt
                rw [gtSub_pos hs hsp, gtSub_gtRepl, ih x.2 (by omega)]
            | none =>
                have heq : c :: cs = gtPat ++ (c :: cs).drop 13 := startsWithCh_eq_append hs
                have hq : noQB ((c :: cs).drop 13) = true := (splitClose_none_iff _).1 hsp
                rw [heq, gtSub_gtPat_fail hq,
                  gtSub_gtPat_fail (noQB_gtSub _ _ le_rfl hq),
                  ih ((c :: cs).drop 13)
                    (by simp only [List.length_drop, List.length_cons]; omega)]
          · have hs' : startsWithCh gtPat (c :: cs) = false := by simpa using hs
            rw [gtSub_skip hs', gtSub_skip (gtSub_no_new_match hs'), ih cs (by omega)]

theorem gtSub_idem (cs : List Char) : gtSub (gtSub cs) = gtSub cs :=
  gtSub_idem_aux cs.length cs le_rfl

theorem labels_gtSub_aux : ∀ (n : Nat) (cs : List Char), cs.length ≤ n →
    labelsOfCh (gtSub cs) = (labelsOfCh cs).map (fun _ => GROUP_TITLE) := by
  intro n
  induction n with
  | zero =>
      intro cs hn
      have : cs = [] := List.length_eq_zero.1 (Nat.le_zero.1 hn)
      subst this; rfl
  | succ n ih =>
      intro cs hn
      cases cs with
      | nil => rfl
      | cons c cs =>
          simp only [List.length_cons] at hn
          by_cases hs : startsWithCh gtPat (c :: cs) = true
          · cases hsp : splitClose ((c :: cs).drop 13) with
            | some x =>
                have hlt := splitClose_length hsp
                simp only [List.length_drop, List.length_cons] at hlt
                rw [gtSub_pos hs hsp, labels_gtRepl, labels_pos hs hsp, List.map_cons,
                  ih x.2 (by omega)]
            | none =>
                have heq : c :: cs = gtPat ++ (c :: cs).drop 13 := startsWithCh_eq_append hs
                have hq : noQB ((c :: cs).drop 13) = true := (splitClose_none_iff _).1 hsp
                rw [heq, gtSub_gtPat_fail hq,
                  labels_gtPat_fail (noQB_gtSub _ _ le_rfl hq), labels_gtPat_fail hq,
                  ih ((c :: cs).drop 13)
                    (by simp only [List.length_drop, List.length_cons]; omega)]
          · have hs' : startsWithCh gtPat (c :: cs) = false := by simpa using hs
            rw [gtSub_skip hs', labels_skip (gtSub_no_new_match hs'), labels_skip hs',
              ih cs (by omega)]

theorem labels_gtSub (cs : List Char) :
    labelsOfCh (gtSub cs) = (labelsOfCh cs).map (fun _ => GROUP_TITLE) :=
  labels_gtSub_aux cs.length cs le_rfl

theorem containsSub_of_starts {pat : List Char} {c : Char} {cs : List Char}
    (h : startsWithCh pat (c :: cs) = true) : containsSub pat (c :: cs) = true := by
  simp [containsSub, h]

theorem containsSub_cons (pat : List Char) (c : Char) {cs : List Char}
    (h : containsSub pat cs = true) : containsSub pat (c :: cs) = true := by
  simp [containsSub, h]

theorem containsSub_append_right (pat : List Char) : ∀ (a : List Char) {x : List Char},
    containsSub pat x = true → containsSub pat (a ++ x) = true := by
  intro a
  induction a with
  | nil => intro x h; exact h
  | cons b a ih =>
      intro x h
      rw [List.cons_append]
      exact containsSub_cons _ _ (ih h)

theorem containsSub_of_drop (pat : List Char) (n : Nat) {cs : List Char}
    (h : containsSub pat (cs.drop n) = true) : containsSub pat cs = true := by
  have h2 := containsSub_append_right pat (cs.take n) h
  rwa [List.take_append_drop] at h2

theorem startsWithCh_mono : ∀ {a b cs : List Char}, startsWithCh (a ++ b) cs = true →
    startsWithCh a cs = true := by
  intro a
  induction a with
  | nil => intro b cs _; rfl
  | cons p a ih =>
      intro b cs h
      cases cs with
      | nil =>
          rw [List.cons_append] at h
          simp [startsWithCh] at h
      | cons d cs =>
          rw [List.cons_append] at h
          simp only [startsWithCh, Bool.and_eq_true] at h ⊢
          exact ⟨h.1, ih h.2⟩

theorem pyStarts_hash {x : String} (h : pyStarts x "#EXTINF" = true) :
    pyStarts x "#" = true := by
  have hd : ("#EXTINF".data : List Char) = "#".data ++ "EXTINF".data := rfl
  unfold pyStarts at h ⊢
  rw [hd] at h
  exact startsWithCh_mono h

theorem contains_inPat_gtSub_aux : ∀ (n : Nat) (cs : List Char), cs.length ≤ n →
    containsSub inPat cs = true → containsSub inPat (gtSub cs) = true := by
  intro n
  induction n with
  | zero =>
      intro cs hn h
      have : cs = [] := List.length_eq_zero.1 (Nat.le_zero.1 hn)
      subst this
      exact absurd h (by decide)
  | succ n ih =>
      intro cs hn h
      cases cs with
      | nil => exact absurd h (by decide)
      | cons c cs =>
          simp only [List.length_cons] at hn
          by_cases hs : startsWithCh gtPat (c :: cs) = true
          · cases hsp : splitClose ((c :: cs).drop 13) with
            | some x =>
                rw [gtSub_pos hs hsp]
                rw [show gtRepl ++ gtSub x.2 =
                  'g' :: ("roup-title=\x22UDPTV Live Streams\x22".data ++ gtSub x.2) from rfl]
                apply containsSub_of_starts
                exact startsWithCh_append_self inPat
                  ("title=\x22UDPTV Live Streams\x22".data ++ gtSub x.2)
            | none =>
                have heq : c :: cs = gtPat ++ (c :: cs).drop 13 := startsWithCh_eq_append hs
                have hq : noQB ((c :: cs).drop 13) = true := (splitClose_none_iff _).1 hsp
                rw [heq, gtSub_gtPat_fail hq]
                rw [show gtPat ++ gtSub ((c :: cs).drop 13) =
                  'g' :: ("roup-title=\x22".data ++ gtSub ((c :: cs).drop 13)) from rfl]
                apply containsSub_of_starts
                exact startsWithCh_append_self inPat
                  ("\x22".data ++ gtSub ((c :: cs).drop 13))
          · have hs' : startsWithCh gtPat (c :: cs) = false := by simpa using hs
            rw [gtSub_skip hs']
            simp only [containsSub, Bool.or_eq_true] at h
            cases h with
            | inr h2 => exact containsSub_cons _ _ (ih cs (by omega) h2)
            | inl h2 =>
                apply containsSub_of_starts
                obtain ⟨hc, ht⟩ : c = 'g' ∧ startsWithCh "roup-title=".data cs = true := by
                  have hi : (inPat : List Char) = 'g' :: "roup-title=".data := rfl
                  rw [hi] at h2
                  simp only [startsWithCh, Bool.and_eq_true, decide_eq_true_eq] at h2
                  exact ⟨h2.1.symm, h2.2⟩
                have htk := startsWithCh_iff_take.1 ht
                have hnog : 'g' ∉ cs.take ("roup-title=".data).length := by
                  rw [htk]; decide
                have hti := gtSub_take_in cs.length cs _ le_rfl hnog
                subst hc
                rw [show (inPat : List Char) = 'g' :: "roup-title=".data from rfl]
                simp only [startsWithCh, Bool.and_eq_true, decide_eq_true_eq]
                exact ⟨trivial, startsWithCh_iff_take.2 (hti.trans htk)⟩

theorem contains_inPat_gtSub {cs : List Char} (h : containsSub inPat cs = true) :
    containsSub inPat (gtSub cs) = true :=
  contains_inPat_gtSub_aux cs.length cs le_rfl h

theorem containsSub_cons_false {pat : List Char} {c : Char} {cs : List Char}
    (h : containsSub pat (c :: cs) = false) :
    startsWithCh pat (c :: cs) = false ∧ containsSub pat cs = false := by
  constructor
  · cases hst : startsWithCh pat (c :: cs)
    · rfl
    · exact absurd ((containsSub_of_starts hst).symm.trans h) (by decide)
  · cases hct : containsSub pat cs
    · rfl
    · exact absurd ((containsSub_cons pat c hct).symm.trans h) (by decide)

theorem labels_insRepl (Z : List Char) :
    labelsOfCh (insRepl ++ Z) = GROUP_TITLE :: labelsOfCh Z := by
  rw [show insRepl ++ Z = "#EXTINF:-1 ".data ++ (gtRepl ++ (',' :: Z)) from rfl,
    labels_nog_prefix _ _ (by decide), labels_gtRepl,
    labels_skip (show startsWithCh gtPat (',' :: Z) = false from rfl)]

theorem gtSub_insRepl (Z : List Char) : gtSub (insRepl ++ Z) = insRepl ++ gtSub Z := by
  rw [show insRepl ++ Z = "#EXTINF:-1 ".data ++ (gtRepl ++ (',' :: Z)) from rfl,
    gtSub_nog_prefix _ _ (by decide), gtSub_gtRepl,
    gtSub_skip (show startsWithCh gtPat (',' :: Z) = false from rfl)]
  rfl

theorem rAll_take_out : ∀ (n : Nat) (cs : List Char) (m : Nat), cs.length ≤ n →
    '#' ∉ (replaceAll extinfColon insRepl cs).take m →
    (replaceAll extinfColon insRepl cs).take m = cs.take m := by
  intro n
  induction n with
  | zero =>
      intro cs m hn _
      have : cs = [] := List.length_eq_zero.1 (Nat.le_zero.1 hn)
      subst this
      rfl
  | succ n ih =>
      intro cs m hn hg
      cases cs with
      | nil => rfl
      | cons c cs =>
          cases m with
          | zero => simp
          | succ m =>
              by_cases hs : startsWithCh extinfColon (c :: cs) = true
              · rw [replaceAll_pos (by decide) hs] at hg
                exact absurd
                  (by simp [insRepl] :
                    '#' ∈ (insRepl ++
                      replaceAll extinfColon insRepl ((c :: cs).drop
                        (extinfColon : List Char).length)).take (m + 1)) hg
              · have hs' : startsWithCh extinfColon (c :: cs) = false := by simpa using hs
                rw [replaceAll_skip hs'] at hg ⊢
                simp only [List.take_succ_cons, List.mem_cons, not_or] at hg
                simp only [List.take_succ_cons, List.length_cons] at hn ⊢
                rw [ih cs m (by omega) hg.2]

theorem rAll_no_new_match {c : Char} {cs : List Char}
    (hno : containsSub inPat (c :: cs) = false) :
    startsWithCh gtPat (c :: replaceAll extinfColon insRepl cs) = false := by
  rw [Bool.eq_false_iff]
  intro hh
  obtain ⟨hc, ht⟩ := startsWith_gtPat_cons.1 hh
  have htake := startsWithCh_iff_take.1 ht
  have hsharp : '#' ∉
      (replaceAll extinfColon insRepl cs).take ("roup-title=\x22".data).length := by
    rw [htake]; decide
  have hto := rAll_take_out cs.length cs _ le_rfl hsharp
  have hgs : startsWithCh gtPat (c :: cs) = true :=
    startsWith_gtPat_cons.2 ⟨hc, startsWithCh_iff_take.2 (hto ▸ htake)⟩
  have hin : startsWithCh inPat (c :: cs) = true := by
    have hgp : (gtPat : List Char) = inPat ++ ['\x22'] := rfl
    rw [hgp] at hgs
    exact startsWithCh_mono hgs
  exact absurd ((containsSub_of_starts hin).symm.trans hno) (by decide)

theorem rAll_labels_allG : ∀ (n : Nat) (cs : List Char), cs.length ≤ n →
    containsSub inPat cs = false →
    ∀ g ∈ labelsOfCh (replaceAll extinfColon insRepl cs), g = GROUP_TITLE := by
  intro n
  induction n with
  | zero =>
      intro cs hn _
      have : cs = [] := List.length_eq_zero.1 (Nat.le_zero.1 hn)
      subst this
      simp [replaceAll_nil, labelsOfCh_nil]
  | succ n ih =>
      intro cs hn hno
      cases cs with
      | nil => simp [replaceAll_nil, labelsOfCh_nil]
      | cons c cs =>
          simp only [List.length_cons] at hn
          have h8 : (extinfColon : List Char).length = 8 := rfl
          by_cases hs : startsWithCh extinfColon (c :: cs) = true
          · rw [replaceAll_pos (by decide) hs, labels_insRepl]
            intro g hg
            rcases List.mem_cons.1 hg with hg | hg
            · exact hg
            · refine ih ((c :: cs).drop (extinfColon : List Char).length) ?_ ?_ g hg
              · simp only [List.length_drop, List.length_cons, h8]; omega
              · cases hcd : containsSub inPat ((c :: cs).drop (extinfColon : List Char).length)
                · rfl
                · exact absurd ((containsSub_of_drop inPat _ hcd).symm.trans hno) (by decide)
          · have hs' : startsWithCh extinfColon (c :: cs) = false := by simpa using hs
            rw [replaceAll_skip hs', labels_skip (rAll_no_new_match hno)]
            exact ih cs (by omega) (containsSub_cons_false hno).2

theorem rAll_labels_ne_nil {c : Char} {cs : List Char}
    (hs : startsWithCh extinfColon (c :: cs) = true) :
    labelsOfCh (replaceAll extinfColon insRepl (c :: cs)) ≠ [] := by
  rw [replaceAll_pos (by decide) hs, labels_insRepl]
  simp

theorem rAll_gtSub_fix : ∀ (n : Nat) (cs : List Char), cs.length ≤ n →
    containsSub inPat cs = false →
    gtSub (replaceAll extinfColon insRepl cs) = replaceAll extinfColon insRepl cs := by
  intro n
  induction n with
  | zero =>
      intro cs hn _
      have : cs = [] := List.length_eq_zero.1 (Nat.le_zero.1 hn)
      subst this
      rfl
  | succ n ih =>
      intro cs hn hno
      cases cs with
      | nil => rfl
      | cons c cs =>
          simp only [List.length_cons] at hn
          have h8 : (extinfColon : List Char).length = 8 := rfl
          by_cases hs : startsWithCh extinfColon (c :: cs) = true
          · rw [replaceAll_pos (by decide) hs, gtSub_insRepl]
            rw [ih ((c :: cs).drop (extinfColon : List Char).length) ?_ ?_]
            · simp only [List.length_drop, List.length_cons, h8]; omega
            · cases hcd : containsSub inPat ((c :: cs).drop (extinfColon : List Char).length)
              · rfl
              · exact absurd ((containsSub_of_drop inPat _ hcd).symm.trans hno) (by decide)
          · have hs' : startsWithCh extinfColon (c :: cs) = false := by simpa using hs
            rw [replaceAll_skip hs', gtSub_skip (rAll_no_new_match hno),
              ih cs (by omega) (containsSub_cons_false hno).2]

theorem rAll_introduces_inPat : ∀ (n : Nat) (cs : List Char), cs.length ≤ n →
    containsSub extinfColon cs = true →
    containsSub inPat (replaceAll extinfColon insRepl cs) = true := by
  intro n
  induction n with
  | zero =>
      intro cs hn h
      have : cs = [] := List.length_eq_zero.1 (Nat.le_zero.1 hn)
      subst this
      exact absurd h (by decide)
  | succ n ih =>
      intro cs hn h
      cases cs with
      | nil => exact absurd h (by decide)
      | cons c cs =>
          simp only [List.length_cons] at hn
          by_cases hs : startsWithCh extinfColon (c :: cs) = true
          · rw [replaceAll_pos (by decide) hs]
            rw [show insRepl ++ replaceAll extinfColon insRepl ((c :: cs).drop
                  (extinfColon : List Char).length) =
                "#EXTINF:-1 ".data ++ ('g' :: ("roup-title=\x22UDPTV Live Streams\x22,".data ++
                  replaceAll extinfColon insRepl ((c :: cs).drop
                    (extinfColon : List Char).length))) from rfl]
            apply containsSub_append_right
            apply containsSub_of_starts
            exact startsWithCh_append_self inPat _
          · have hs' : startsWithCh extinfColon (c :: cs) = false := by simpa using hs
            simp only [containsSub, Bool.or_eq_true] at h
            cases h with
            | inl h2 => exact absurd h2 hs
            | inr h2 =>
                rw [replaceAll_skip hs']
                exact containsSub_cons _ _ (ih cs (by omega) h2)

theorem replaceAll_fix : ∀ (pat repl : List Char) (n : Nat) (cs : List Char), cs.length ≤ n →
    containsSub pat cs = false → replaceAll pat repl cs = cs := by
  intro pat repl n
  induction n with
  | zero =>
      intro cs hn _
      have : cs = [] := List.length_eq_zero.1 (Nat.le_zero.1 hn)
      subst this
      rfl
  | succ n ih =>
      intro cs hn hno
      cases cs with
      | nil => rfl
      | cons c cs =>
          simp only [List.length_cons] at hn
          obtain ⟨h1, h2⟩ := containsSub_cons_false hno
          rw [replaceAll_skip h1, ih cs (by omega) h2]

theorem stdExtinf_idem (cs : List Char) : stdExtinf (stdExtinf cs) = stdExtinf cs := by
  by_cases h : containsSub inPat cs = true
  · have h1 : stdExtinf cs = gtSub cs := by simp [stdExtinf, h]
    rw [h1]
    have h2 : containsSub inPat (gtSub cs) = true := contains_inPat_gtSub h
    simp [stdExtinf, h2, gtSub_idem]
  · have hno : containsSub inPat cs = false := by simpa using h
    have h1 : stdExtinf cs = replaceAll extinfColon insRepl cs := by simp [stdExtinf, hno]
    rw [h1]
    by_cases hE : containsSub extinfColon cs = true
    · have h2 := rAll_introduces_inPat cs.length cs le_rfl hE
      simp only [stdExtinf, h2, if_true]
      exact rAll_gtSub_fix cs.length cs le_rfl hno
    · have hEno : containsSub extinfColon cs = false := by simpa using hE
      have h3 := replaceAll_fix extinfColon insRepl cs.length cs le_rfl hEno
      rw [h3]
      simp only [stdExtinf, hno]
      exact h3

theorem stdExtinf_labels {cs : List Char}
    (h8 : startsWithCh extinfColon cs = true)
    (hq : containsSub inPat cs = true → hasQuotedGT cs = true) :
    labelsOfCh (stdExtinf cs) ≠ [] ∧ ∀ g ∈ labelsOfCh (stdExtinf cs), g = GROUP_TITLE := by
  by_cases h : containsSub inPat cs = true
  · have h1 : stdExtinf cs = gtSub cs := by simp [stdExtinf, h]
    rw [h1, labels_gtSub]
    constructor
    · have h2 := hq h
      intro hnil
      rw [List.map_eq_nil_iff] at hnil
      rw [hasQuotedGT, hnil] at h2
      simp at h2
    · intro g hg
      rcases List.mem_map.1 hg with ⟨a, _, ha⟩
      simpa using ha.symm
  · have hno : containsSub inPat cs = false := by simpa using h
    have h1 : stdExtinf cs = replaceAll extinfColon insRepl cs := by simp [stdExtinf, hno]
    rw [h1]
    cases cs with
    | nil => exact absurd h8 (by decide)
    | cons c cs0 => exact ⟨rAll_labels_ne_nil h8, rAll_labels_allG _ _ le_rfl hno⟩

theorem stdExtinf_extinf {cs : List Char} (h8 : startsWithCh extinfColon cs = true) :
    startsWithCh "#EXTINF".data (stdExtinf cs) = true := by
  by_cases h : containsSub inPat cs = true
  · have h1 : stdExtinf cs = gtSub cs := by simp [stdExtinf, h]
    rw [h1]
    have heq := startsWithCh_eq_append h8
    rw [heq, gtSub_nog_prefix _ _ (by decide : ∀ a ∈ (extinfColon : List Char), a ≠ 'g')]
    exact startsWithCh_append_self "#EXTINF".data
      (':' :: gtSub (cs.drop (extinfColon : List Char).length))
  · have hno : containsSub inPat cs = false := by simpa using h
    have h1 : stdExtinf cs = replaceAll extinfColon insRepl cs := by simp [stdExtinf, hno]
    rw [h1]
    cases cs with
    | nil => exact absurd h8 (by decide)
    | cons c cs0 =>
        rw [replaceAll_pos (by decide) h8]
        exact startsWithCh_append_self "#EXTINF".data
          (":-1 group-title=\x22UDPTV Live Streams\x22,".data ++
            replaceAll extinfColon insRepl ((c :: cs0).drop (extinfColon : List Char).length))

theorem getLast?_append_right (x : List Char) {y : List Char} (hy : y ≠ []) :
    (x ++ y).getLast? = y.getLast? := by
  obtain ⟨c, z, hz⟩ : ∃ c z, y.reverse = c :: z := by
    cases hyr : y.reverse with
    | nil => exact absurd (by simpa using congrArg List.reverse hyr) hy
    | cons c z => exact ⟨c, z, rfl⟩
  rw [← List.head?_reverse, ← List.head?_reverse, List.reverse_append, hz]
  rfl

theorem dropWhile_head_not {p : Char → Bool} : ∀ {l : List Char} {c : Char} {r : List Char},
    l.dropWhile p = c :: r → p c = false := by
  intro l
  induction l with
  | nil => intro c r h; simp [List.dropWhile] at h
  | cons a l ih =>
      intro c r h
      rw [List.dropWhile_cons] at h
      by_cases hp : p a = true
      · rw [if_pos hp] at h; exact ih h
      · rw [if_neg hp] at h
        injection h with h1 h2
        rw [← h1]
        simpa using hp

theorem dropWhile_append_shape (p : Char → Bool) : ∀ (l : List Char),
    ∃ w, l = w ++ l.dropWhile p := by
  intro l
  induction l with
  | nil => exact ⟨[], rfl⟩
  | cons a l ih =>
      rw [List.dropWhile_cons]
      by_cases hp : p a = true
      · rw [if_pos hp]
        obtain ⟨w, hw⟩ := ih
        exact ⟨a :: w, by rw [List.cons_append, ← hw]⟩
      · rw [if_neg hp]
        exact ⟨[], rfl⟩

theorem dropWhile_pyWs_eq_self {cs : List Char} (h : headOk cs = true) :
    cs.dropWhile pyWs = cs := by
  cases cs with
  | nil => rfl
  | cons c r =>
      have h2 : (!pyWs c) = true := h
      simp only [Bool.not_eq_true'] at h2
      rw [List.dropWhile_cons, if_neg (by simp [h2])]

theorem pyStripCh_eq_self {cs : List Char} (h1 : headOk cs = true) (h2 : lastOk cs = true) :
    pyStripCh cs = cs := by
  unfold pyStripCh
  rw [dropWhile_pyWs_eq_self h1]
  have h3 : headOk cs.reverse = true := by
    unfold headOk
    rw [List.head?_reverse]
    exact h2
  rw [dropWhile_pyWs_eq_self h3, List.reverse_reverse]

theorem lastOk_pyStripCh (cs : List Char) : lastOk (pyStripCh cs) = true := by
  unfold pyStripCh
  cases hB : (cs.dropWhile pyWs).reverse.dropWhile pyWs with
  | nil => rfl
  | cons b r =>
      unfold lastOk
      rw [List.getLast?_reverse]
      have hb := dropWhile_head_not hB
      simp [hb]

theorem headOk_pyStripCh (cs : List Char) : headOk (pyStripCh cs) = true := by
  unfold pyStripCh
  cases hB : (cs.dropWhile pyWs).reverse.dropWhile pyWs with
  | nil => rfl
  | cons b r =>
      unfold headOk
      rw [List.head?_reverse]
      obtain ⟨w, hw⟩ := dropWhile_append_shape pyWs (cs.dropWhile pyWs).reverse
      rw [hB] at hw
      have hg : (b :: r).getLast? = (cs.dropWhile pyWs).reverse.getLast? := by
        rw [hw, getLast?_append_right _ (List.cons_ne_nil b r)]
      rw [hg, List.getLast?_reverse]
      cases hA : cs.dropWhile pyWs with
      | nil => rw [hA] at hB; simp at hB
      | cons a t =>
          have ha := dropWhile_head_not hA
          simp [ha]

theorem pyStrip_fix {s : String} (h1 : headOk s.data = true) (h2 : lastOk s.data = true) :
    pyStrip s = s := by
  unfold pyStrip
  rw [pyStripCh_eq_self h1 h2]

theorem pyStrip_idem (s : String) : pyStrip (pyStrip s) = pyStrip s := by
  apply pyStrip_fix
  · exact headOk_pyStripCh s.data
  · exact lastOk_pyStripCh s.data

theorem splitClose_eq : ∀ {cs : List Char} {x : List Char × List Char},
    splitClose cs = some x → cs = x.1 ++ '\x22' :: x.2 := by
  intro cs
  induction cs with
  | nil => intro x h; simp [splitClose] at h
  | cons c cs ih =>
      intro x h
      simp only [splitClose] at h
      by_cases h1 : c = '\x22'
      · rw [if_pos h1] at h
        obtain rfl := Option.some.inj h
        simp [h1]
      · rw [if_neg h1] at h
        by_cases h2 : c = '\n'
        · rw [if_pos h2] at h; simp at h
        · rw [if_neg h2] at h
          cases hy : splitClose cs with
          | none => rw [hy] at h; simp at h
          | some y =>
              rw [hy] at h
              simp only [Option.map_some'] at h
              obtain rfl := Option.some.inj h
              have hc := ih hy
              simp [hc]

theorem lastOk_cons {c : Char} {cs : List Char} (h : cs ≠ []) :
    lastOk (c :: cs) = lastOk cs := by
  unfold lastOk
  cases cs with
  | nil => exact absurd rfl h
  | cons b t => rw [List.getLast?_cons_cons]

theorem lastOk_append {x y : List Char} (hy : y ≠ []) (h : lastOk y = true) :
    lastOk (x ++ y) = true := by
  unfold lastOk at h ⊢
  rw [getLast?_append_right x hy]
  exact h

theorem gtSub_ne_nil (c : Char) (cs : List Char) : gtSub (c :: cs) ≠ [] := by
  by_cases hs : startsWithCh gtPat (c :: cs) = true
  · cases hsp : splitClose ((c :: cs).drop 13) with
    | some x => rw [gtSub_pos hs hsp]; simp [gtRepl]
    | none => rw [gtSub_fail hs hsp]; simp
  · rw [gtSub_skip (by simpa using hs)]; simp

theorem rAll_ne_nil (c : Char) (cs : List Char) :
    replaceAll extinfColon insRepl (c :: cs) ≠ [] := by
  by_cases hs : startsWithCh extinfColon (c :: cs) = true
  · rw [replaceAll_pos (by decide) hs]; simp [insRepl]
  · rw [replaceAll_skip (by simpa using hs)]; simp

theorem headOk_gtSub (cs : List Char) (h : headOk cs = true) : headOk (gtSub cs) = true := by
  cases cs with
  | nil => exact h
  | cons c cs =>
      by_cases hs : startsWithCh gtPat (c :: cs) = true
      · cases hsp : splitClose ((c :: cs).drop 13) with
        | some x =>
            rw [gtSub_pos hs hsp,
              show gtRepl ++ gtSub x.2 =
                'g' :: ("roup-title=\x22UDPTV Live Streams\x22".data ++ gtSub x.2) from rfl]
            rfl
        | none => rw [gtSub_fail hs hsp]; exact h
      · rw [gtSub_skip (by simpa using hs)]; exact h

theorem headOk_rAll (cs : List Char) (h : headOk cs = true) :
    headOk (replaceAll extinfColon insRepl cs) = true := by
  cases cs with
  | nil => exact h
  | cons c cs =>
      by_cases hs : startsWithCh extinfColon (c :: cs) = true
      · rw [replaceAll_pos (by decide) hs,
          show insRepl ++ replaceAll extinfColon insRepl ((c :: cs).drop
              (extinfColon : List Char).length) =
            '#' :: ("EXTINF:-1 group-title=\x22UDPTV Live Streams\x22,".data ++
              replaceAll extinfColon insRepl ((c :: cs).drop
                (extinfColon : List Char).length)) from rfl]
        rfl
      · rw [replaceAll_skip (by simpa using hs)]; exact h

theorem lastOk_gtSub : ∀ (n : Nat) (cs : List Char), cs.length ≤ n →
    lastOk cs = true → lastOk (gtSub cs) = true := by
  intro n
  induction n with
  | zero =>
      intro cs hn h
      have : cs = [] := List.length_eq_zero.1 (Nat.le_zero.1 hn)
      subst this
      exact h
  | succ n ih =>
      intro cs hn h
      cases cs with
      | nil => exact h
      | cons c cs =>
          simp only [List.length_cons] at hn
          by_cases hs : startsWithCh gtPat (c :: cs) = true
          · cases hsp : splitClose ((c :: cs).drop 13) with
            | some x =>
                rw [gtSub_pos hs hsp]
                cases hx2 : x.2 with
                | nil => decide
                | cons b t =>
                    rw [← hx2]
                    have hlast : lastOk x.2 = true := by
                      have heq : c :: cs = gtPat ++ ((c :: cs).drop 13) :=
                        startsWithCh_eq_append hs
                      have hd : (c :: cs).drop 13 = x.1 ++ '\x22' :: x.2 := splitClose_eq hsp
                      have hgl : (c :: cs).getLast? = x.2.getLast? := by
                        rw [heq, hd, getLast?_append_right gtPat (by simp),
                          getLast?_append_right x.1 (by simp), hx2,
                          List.getLast?_cons_cons, ← hx2]
                      unfold lastOk at h ⊢
                      rw [hgl] at h
                      exact h
                    have hlen : x.2.length ≤ n := by
                      have hl2 := splitClose_length hsp
                      simp only [List.length_drop, List.length_cons] at hl2
                      omega
                    have hout := ih x.2 hlen hlast
                    cases hgs : gtSub x.2 with
                    | nil => rw [hx2] at hgs; exact absurd hgs (gtSub_ne_nil _ _)
                    | cons d r =>
                        rw [hgs] at hout
                        exact lastOk_append (by simp) hout
            | none =>
                rw [gtSub_fail hs hsp]
                cases cs with
                | nil => exact h
                | cons b t =>
                    have h2 : lastOk (b :: t) = true := by
                      rwa [lastOk_cons (List.cons_ne_nil _ _)] at h
                    simp only [List.length_cons] at hn
                    have h3 := ih (b :: t) (by simp only [List.length_cons]; omega) h2
                    cases hgs : gtSub (b :: t) with
                    | nil => exact absurd hgs (gtSub_ne_nil _ _)
                    | cons d r =>
                        rw [hgs] at h3
                        rw [lastOk_cons (List.cons_ne_nil _ _)]
                        exact h3
          · rw [gtSub_skip (by simpa using hs)]
            cases cs with
            | nil => exact h
            | cons b t =>
                have h2 : lastOk (b :: t) = true := by
                  rwa [lastOk_cons (List.cons_ne_nil _ _)] at h
                simp only [List.length_cons] at hn
                have h3 := ih (b :: t) (by simp only [List.length_cons]; omega) h2
                cases hgs : gtSub (b :: t) with
                | nil => exact absurd hgs (gtSub_ne_nil _ _)
                | cons d r =>
                    rw [hgs] at h3
                    rw [lastOk_cons (List.cons_ne_nil _ _)]
                    exact h3

theorem lastOk_rAll : ∀ (n : Nat) (cs : List Char), cs.length ≤ n →
    lastOk cs = true → lastOk (replaceAll extinfColon insRepl cs) = true := by
  intro n
  induction n with
  | zero =>
      intro cs hn h
      have : cs = [] := List.length_eq_zero.1 (Nat.le_zero.1 hn)
      subst this
      exact h
  | succ n ih =>
      intro cs hn h
      cases cs with
      | nil => exact h
      | cons c cs =>
          simp only [List.length_cons] at hn
          have h8 : (extinfColon : List Char).length = 8 := rfl
          by_cases hs : startsWithCh extinfColon (c :: cs) = true
          · rw [replaceAll_pos (by decide) hs]
            cases hd : (c :: cs).drop (extinfColon : List Char).length with
            | nil => decide
            | cons b t =>
                rw [← hd]
                have hlast : lastOk ((c :: cs).drop (extinfColon : List Char).length) = true := by
                  have hgl : (c :: cs).getLast? =
                      ((c :: cs).drop (extinfColon : List Char).length).getLast? := by
                    conv_lhs =>
                      rw [← List.take_append_drop ((extinfColon : List Char).length) (c :: cs)]
                    rw [getLast?_append_right _ (by rw [hd]; simp)]
                  unfold lastOk at h ⊢
                  rw [hgl] at h
                  exact h
                have hlen : ((c :: cs).drop (extinfColon : List Char).length).length ≤ n := by
                  simp only [List.length_drop, List.length_cons, h8]
                  omega
                have hout := ih _ hlen hlast
                cases hR : replaceAll extinfColon insRepl
                    ((c :: cs).drop (extinfColon : List Char).length) with
                | nil => rw [hd] at hR; exact absurd hR (rAll_ne_nil _ _)
                | cons d r =>
                    rw [hR] at hout
                    exact lastOk_append (by simp) hout
          · rw [replaceAll_skip (by simpa using hs)]
            cases cs with
            | nil => exact h
            | cons b t =>
                have h2 : lastOk (b :: t) = true := by
                  rwa [lastOk_cons (List.cons_ne_nil _ _)] at h
                simp only [List.length_cons] at hn
                have h3 := ih (b :: t) (by simp only [List.length_cons]; omega) h2
                cases hR : replaceAll extinfColon insRepl (b :: t) with
                | nil => exact absurd hR (rAll_ne_nil _ _)
                | cons d r =>
                    rw [hR] at h3
                    rw [lastOk_cons (List.cons_ne_nil _ _)]
                    exact h3

theorem stdExtinfS_idem (s : String) : stdExtinfS (stdExtinfS s) = stdExtinfS s :=
  congrArg (fun l => (⟨l⟩ : String)) (stdExtinf_idem s.data)

theorem stdExtinfS_strip {s : String} (h : pyStrip s = s) :
    pyStrip (stdExtinfS s) = stdExtinfS s := by
  have hh : headOk s.data = true := by
    have h2 : s.data = (pyStrip s).data := (congrArg String.data h).symm
    rw [h2]
    exact headOk_pyStripCh s.data
  have hl : lastOk s.data = true := by
    have h2 : s.data = (pyStrip s).data := (congrArg String.data h).symm
    rw [h2]
    exact lastOk_pyStripCh s.data
  apply pyStrip_fix
  · show headOk (stdExtinf s.data) = true
    by_cases hc : containsSub inPat s.data = true
    · rw [show stdExtinf s.data = gtSub s.data from by simp [stdExtinf, hc]]
      exact headOk_gtSub _ hh
    · have hno : containsSub inPat s.data = false := by simpa using hc
      rw [show stdExtinf s.data = replaceAll extinfColon insRepl s.data from by
        simp [stdExtinf, hno]]
      exact headOk_rAll _ hh
  · show lastOk (stdExtinf s.data) = true
    by_cases hc : containsSub inPat s.data = true
    · rw [show stdExtinf s.data = gtSub s.data from by simp [stdExtinf, hc]]
      exact lastOk_gtSub s.data.length _ le_rfl hl
    · have hno : containsSub inPat s.data = false := by simpa using hc
      rw [show stdExtinf s.data = replaceAll extinfColon insRepl s.data from by
        simp [stdExtinf, hno]]
      exact lastOk_rAll s.data.length _ le_rfl hl

theorem stdExtinfS_labels {s : String} (h8 : pyStarts s "#EXTINF:" = true)
    (hq : containsSub inPat s.data = true → hasQuotedGT s.data = true) :
    labelsOf (stdExtinfS s) ≠ [] ∧ ∀ g ∈ labelsOf (stdExtinfS s), g = GROUP_TITLE :=
  stdExtinf_labels h8 hq

theorem stdExtinfS_starts {s : String} (h8 : pyStarts s "#EXTINF:" = true) :
    pyStarts (stdExtinfS s) "#EXTINF" = true :=
  stdExtinf_extinf h8

theorem cleanAux_nil : cleanAux [] = ([], 0) := rfl

theorem cleanAux_one (l : String) : cleanAux [l] =
    if pyStarts (pyStrip l) "#EXTINF" then ([stdExtinfS (pyStrip l)], 0)
    else if keepLine (pyStrip l) then ([pyStrip l], 0)
    else ([], 0) := rfl

theorem cleanAux_cons (l r : String) (rest2 : List String) : cleanAux (l :: r :: rest2) =
    if pyStarts (pyStrip l) "#EXTINF" then
      if ¬ pyStarts r "#" then
        (stdExtinfS (pyStrip l) :: pyStrip r :: (cleanAux rest2).1, (cleanAux rest2).2 + 1)
      else (stdExtinfS (pyStrip l) :: (cleanAux (r :: rest2)).1, (cleanAux (r :: rest2)).2)
    else if keepLine (pyStrip l) then
      (pyStrip l :: (cleanAux (r :: rest2)).1, (cleanAux (r :: rest2)).2)
    else cleanAux (r :: rest2) := rfl

theorem cleanShape_inv {x : String} {t : List String} (h : CleanShape (x :: t)) :
    pyStarts x "#EXTINF" = true ∨
      (pyStrip x = x ∧ pyStarts x "#EXTINF" = false ∧ keepLine x = true ∧ CleanShape t) := by
  cases h
  · left; assumption
  · left; assumption
  · right
    exact ⟨by assumption, by assumption, by assumption, by assumption⟩

theorem cleanFix : ∀ (n : Nat) (out : List String), out.length ≤ n → CleanShape out →
    (cleanAux out).1 = out := by
  intro n
  induction n with
  | zero =>
      intro out hn hsh
      have : out = [] := List.length_eq_zero.1 (Nat.le_zero.1 hn)
      subst this
      rfl
  | succ n ih =>
      intro out hn hsh
      cases hsh with
      | nil => rfl
      | pair e u t he1 he2 he3 hu1 hu2 hsh2 =>
          simp only [List.length_cons] at hn
          rw [cleanAux_cons, he1, if_pos he2, if_pos (by simp [hu2])]
          dsimp only
          rw [he3, hu1, ih t (by omega) hsh2]
      | lone e t he1 he2 he3 hsh2 =>
          cases t with
          | nil =>
              rw [cleanAux_one, he1, if_pos he2]
              dsimp only
              rw [he3]
          | cons h2 t2 =>
              simp only [List.length_cons] at hn
              by_cases hh : pyStarts h2 "#" = true
              · rw [cleanAux_cons, he1, if_pos he2, if_neg (by simp [hh])]
                dsimp only
                rw [he3, ih (h2 :: t2) (by simp only [List.length_cons]; omega) hsh2]
              · have hh' : pyStarts h2 "#" = false := by simpa using hh
                rw [cleanAux_cons, he1, if_pos he2, if_pos (by simp [hh'])]
                dsimp only
                rcases cleanShape_inv hsh2 with hx | ⟨g1, g2, g3, g4⟩
                · exact absurd (pyStarts_hash hx) (by simp [hh'])
                · rw [he3, g1, ih t2 (by omega) g4]
      | keep k t hk1 hk2 hk3 hsh2 =>
          cases t with
          | nil =>
              rw [cleanAux_one, hk1, if_neg (by simp [hk2]), if_pos hk3]
          | cons h2 t2 =>
              simp only [List.length_cons] at hn
              rw [cleanAux_cons, hk1, if_neg (by simp [hk2]), if_pos hk3]
              dsimp only
              rw [ih (h2 :: t2) (by simp only [List.length_cons]; omega) hsh2]

theorem cleanProd : ∀ (n : Nat) (lines : List String), lines.length ≤ n →
    (∀ l ∈ lines, pyStarts l "#" = false → pyStarts (pyStrip l) "#" = false) →
    (∀ l ∈ lines, pyStarts (pyStrip l) "#EXTINF" = true →
      pyStarts (pyStrip l) "#EXTINF:" = true ∧
        (containsSub inPat (pyStrip l).data = true → hasQuotedGT (pyStrip l).data = true)) →
    CleanShape (cleanAux lines).1 ∧
      ∀ x ∈ (cleanAux lines).1, pyStarts x "#EXTINF" = true →
        labelsOf x ≠ [] ∧ ∀ g ∈ labelsOf x, g = GROUP_TITLE := by
  intro n
  induction n with
  | zero =>
      intro lines hn _ _
      have : lines = [] := List.length_eq_zero.1 (Nat.le_zero.1 hn)
      subst this
      exact ⟨CleanShape.nil, by intro x hx _; simp [cleanAux_nil] at hx⟩
  | succ n ih =>
      intro lines hn hurl hwf
      cases lines with
      | nil => exact ⟨CleanShape.nil, by intro x hx _; simp [cleanAux_nil] at hx⟩
      | cons l rest =>
          cases rest with
          | nil =>
              by_cases hE : pyStarts (pyStrip l) "#EXTINF" = true
              · obtain ⟨hw1, hw2⟩ := hwf l (List.mem_cons_self _ _) hE
                have hout : (cleanAux [l]).1 = [stdExtinfS (pyStrip l)] := by
                  rw [cleanAux_one, if_pos hE]
                rw [hout]
                refine ⟨CleanShape.lone _ _ (stdExtinfS_strip (pyStrip_idem l))
                  (stdExtinfS_starts hw1) (stdExtinfS_idem (pyStrip l)) CleanShape.nil, ?_⟩
                intro x hx hxE
                obtain rfl := List.mem_singleton.1 hx
                exact stdExtinfS_labels hw1 hw2
              · have hE' : pyStarts (pyStrip l) "#EXTINF" = false := by simpa using hE
                by_cases hK : keepLine (pyStrip l) = true
                · have hout : (cleanAux [l]).1 = [pyStrip l] := by
                    rw [cleanAux_one, if_neg (by simp [hE']), if_pos hK]
                  rw [hout]
                  refine ⟨CleanShape.keep _ _ (pyStrip_idem l) hE' hK CleanShape.nil, ?_⟩
                  intro x hx hxE
                  obtain rfl := List.mem_singleton.1 hx
                  exact absurd hxE (by simp [hE'])
                · have hout : (cleanAux [l]).1 = [] := by
                    rw [cleanAux_one, if_neg (by simp [hE']), if_neg hK]
                  rw [hout]
                  exact ⟨CleanShape.nil, by intro x hx _; simp at hx⟩
          | cons r rest2 =>
              simp only [List.length_cons] at hn
              have hurl1 : ∀ x ∈ r :: rest2, pyStarts x "#" = false →
                  pyStarts (pyStrip x) "#" = false :=
                fun x hx => hurl x (List.mem_cons_of_mem _ hx)
              have hwf1 : ∀ x ∈ r :: rest2, pyStarts (pyStrip x) "#EXTINF" = true →
                  pyStarts (pyStrip x) "#EXTINF:" = true ∧
                    (containsSub inPat (pyStrip x).data = true →
                      hasQuotedGT (pyStrip x).data = true) :=
                fun x hx => hwf x (List.mem_cons_of_mem _ hx)
              have hurl2 : ∀ x ∈ rest2, pyStarts x "#" = false →
                  pyStarts (pyStrip x) "#" = false :=
                fun x hx => hurl1 x (List.mem_cons_of_mem _ hx)
              have hwf2 : ∀ x ∈ rest2, pyStarts (pyStrip x) "#EXTINF" = true →
                  pyStarts (pyStrip x) "#EXTINF:" = true ∧
                    (containsSub inPat (pyStrip x).data = true →
                      hasQuotedGT (pyStrip x).data = true) :=
                fun x hx => hwf1 x (List.mem_cons_of_mem _ hx)
              by_cases hE : pyStarts (pyStrip l) "#EXTINF" = true
              · obtain ⟨hw1, hw2⟩ := hwf l (List.mem_cons_self _ _) hE
                by_cases hR : pyStarts r "#" = true
                · obtain ⟨ihS, ihL⟩ := ih (r :: rest2)
                    (by simp only [List.length_cons]; omega) hurl1 hwf1
                  have hout : (cleanAux (l :: r :: rest2)).1 =
                      stdExtinfS (pyStrip l) :: (cleanAux (r :: rest2)).1 := by
                    rw [cleanAux_cons, if_pos hE, if_neg (by simp [hR])]
                  rw [hout]
                  refine ⟨CleanShape.lone _ _ (stdExtinfS_strip (pyStrip_idem l))
                    (stdExtinfS_starts hw1) (stdExtinfS_idem (pyStrip l)) ihS, ?_⟩
                  intro x hx hxE
                  rcases List.mem_cons.1 hx with rfl | hx2
                  · exact stdExtinfS_labels hw1 hw2
                  · exact ihL x hx2 hxE
                · have hR' : pyStarts r "#" = false := by simpa using hR
                  obtain ⟨ihS, ihL⟩ := ih rest2 (by omega) hurl2 hwf2
                  have hu2 : pyStarts (pyStrip r) "#" = false :=
                    hurl1 r (List.mem_cons_self _ _) hR'
                  have hout : (cleanAux (l :: r :: rest2)).1 =
                      stdExtinfS (pyStrip l) :: pyStrip r :: (cleanAux rest2).1 := by
                    rw [cleanAux_cons, if_pos hE, if_pos (by simp [hR'])]
                  rw [hout]
                  refine ⟨CleanShape.pair _ _ _ (stdExtinfS_strip (pyStrip_idem l))
                    (stdExtinfS_starts hw1) (stdExtinfS_idem (pyStrip l))
                    (pyStrip_idem r) hu2 ihS, ?_⟩
                  intro x hx hxE
                  rcases List.mem_cons.1 hx with rfl | hx2
                  · exact stdExtinfS_labels hw1 hw2
                  · rcases List.mem_cons.1 hx2 with rfl | hx3
                    · exact absurd (pyStarts_hash hxE) (by simp [hu2])
                    · exact ihL x hx3 hxE
              · have hE' : pyStarts (pyStrip l) "#EXTINF" = false := by simpa using hE
                by_cases hK : keepLine (pyStrip l) = true
                · obtain ⟨ihS, ihL⟩ := ih (r :: rest2)
                    (by simp only [List.length_cons]; omega) hurl1 hwf1
                  have hout : (cleanAux (l :: r :: rest2)).1 =
                      pyStrip l :: (cleanAux (r :: rest2)).1 := by
                    rw [cleanAux_cons, if_neg (by simp [hE']), if_pos hK]
                  rw [hout]
                  refine ⟨CleanShape.keep _ _ (pyStrip_idem l) hE' hK ihS, ?_⟩
                  intro x hx hxE
                  rcases List.mem_cons.1 hx with rfl | hx2
                  · exact absurd hxE (by simp [hE'])
                  · exact ihL x hx2 hxE
                · obtain ⟨ihS, ihL⟩ := ih (r :: rest2)
                    (by simp only [List.length_cons]; omega) hurl1 hwf1
                  have hout : (cleanAux (l :: r :: rest2)).1 = (cleanAux (r :: rest2)).1 := by
                    rw [cleanAux_cons, if_neg (by simp [hE']), if_neg hK]
                  rw [hout]
                  exact ⟨ihS, ihL⟩

/-- C7: counterexample.  The relay cleaner does NOT standardize every
emitted EXTINF entry, and it is NOT idempotent: a playlist whose second raw
line hides an EXTINF entry behind leading whitespace has that entry emitted
verbatim as a paired stream-URL line (its group-title "Sports" survives the
first pass), and a second pass of the cleaner then rewrites it, changing
the output. -/
theorem claim_C7_counterexample :
    (∃ x ∈ clean_playlist
        ["#EXTINF:-1,A", "  #EXTINF:-1 group-title=\x22Sports\x22,B", "http://u"],
      pyStarts x "#EXTINF" = true ∧ ¬ (∀ g ∈ labelsOf x, g = GROUP_TITLE)) ∧
    clean_playlist (clean_playlist
        ["#EXTINF:-1,A", "  #EXTINF:-1 group-title=\x22Sports\x22,B", "http://u"]) ≠
      clean_playlist
        ["#EXTINF:-1,A", "  #EXTINF:-1 group-title=\x22Sports\x22,B", "http://u"] := by
  decide

/-- C7 (amended): for every input playlist in which no stream-URL-position
line (a raw line not starting with #) strips to a line starting with #, and
every EXTINF metadata line strips to a line starting with "#EXTINF:" whose
group-title text, when present at all, includes a quoted group-title
attribute, one pass of the cleaner standardizes every emitted EXTINF
entry's group labels to the fixed standard label (and every such entry
carries at least one label), and the cleaner is idempotent on its own
output: a second pass returns the first pass's lines unchanged. -/
theorem claim_C7_amended (lines : List String)
    (hurl : ∀ l ∈ lines, pyStarts l "#" = false → pyStarts (pyStrip l) "#" = false)
    (hwf : ∀ l ∈ lines, pyStarts (pyStrip l) "#EXTINF" = true →
      pyStarts (pyStrip l) "#EXTINF:" = true ∧
        (containsSub inPat (pyStrip l).data = true → hasQuotedGT (pyStrip l).data = true)) :
    (∀ x ∈ clean_playlist lines, pyStarts x "#EXTINF" = true →
        labelsOf x ≠ [] ∧ ∀ g ∈ labelsOf x, g = GROUP_TITLE) ∧
      clean_playlist (clean_playlist lines) = clean_playlist lines := by
  obtain ⟨hS, hL⟩ := cleanProd lines.length lines le_rfl hurl hwf
  exact ⟨hL, cleanFix (cleanAux lines).1.length _ le_rfl hS⟩

/-- C7: witness for the amended theorem at a concrete playlist. -/
theorem claim_C7_witness :
    (∀ l ∈ (["#EXTM3U", "#EXTINF:-1 group-title=\x22Old\x22 tvg-id=\x22x\x22,Ch",
        "http://x", "Last Updated: now", "#EXTINF:-1,Two",
        "udp://1.2.3.4:1234"] : List String),
      pyStarts l "#" = false → pyStarts (pyStrip l) "#" = false) ∧
    (∀ l ∈ (["#EXTM3U", "#EXTINF:-1 group-title=\x22Old\x22 tvg-id=\x22x\x22,Ch",
        "http://x", "Last Updated: now", "#EXTINF:-1,Two",
        "udp://1.2.3.4:1234"] : List String),
      pyStarts (pyStrip l) "#EXTINF" = true →
        pyStarts (pyStrip l) "#EXTINF:" = true ∧
          (containsSub inPat (pyStrip l).data = true →
            hasQuotedGT (pyStrip l).data = true)) ∧
    ((∀ x ∈ clean_playlist ["#EXTM3U", "#EXTINF:-1 group-title=\x22Old\x22 tvg-id=\x22x\x22,Ch",
        "http://x", "Last Updated: now", "#EXTINF:-1,Two", "udp://1.2.3.4:1234"],
      pyStarts x "#EXTINF" = true →
        labelsOf x ≠ [] ∧ ∀ g ∈ labelsOf x, g = GROUP_TITLE) ∧
      clean_playlist (clean_playlist ["#EXTM3U",
        "#EXTINF:-1 group-title=\x22Old\x22 tvg-id=\x22x\x22,Ch", "http://x",
        "Last Updated: now", "#EXTINF:-1,Two", "udp://1.2.3.4:1234"]) =
        clean_playlist ["#EXTM3U", "#EXTINF:-1 group-title=\x22Old\x22 tvg-id=\x22x\x22,Ch",
          "http://x", "Last Updated: now", "#EXTINF:-1,Two", "udp://1.2.3.4:1234"]) :=
  ⟨by decide, by decide, claim_C7_amended _ (by decide) (by decide)⟩
